import Mathlib

/-!
Verification development for the SmartRecon reconciliation core.

This file gives a shallow embedding of the matching and
exception-classification pipeline of the SmartRecon repository:

- src/src/modules/exact_matching_engine.py  (class ExactMatchingEngine)
- src/src/modules/fuzzy_matching.py         (class FuzzyMatcher)
- src/src/modules/exception_handler.py      (class ExceptionHandler)
- src/src/utils/helpers.py                  (normalize_text)

Modelling conventions:

- pandas DataFrames become lists of records in row order; the DataFrame
  index (original_index) is the idx field of a record.
- Parsed dates (pd.to_datetime with coercion) become Option Int, a day
  number; none models NaT.  Parsed amounts (pd.to_numeric with coercion)
  become Option Rat; none models NaN float values.
- Python float arithmetic on amounts is modelled by exact rationals;
  none of the verified claims depends on binary rounding error.
- f-string interpolation of a NaN/NaT column value produces the literal
  text nan; this is modelled by the rendering functions below mapping
  none to the string nan, exactly as the Python engine builds its keys.
- md5 over a joined key string is modelled by the joined key string
  itself (an injective model of a collision-resistant hash).
- The external string-similarity libraries (fuzzywuzzy, jellyfish) are
  not part of the repository; they are modelled by an oracle parameter
  of type SimOracle.  Everything the engine itself computes around the
  oracle (the empty-string short cut, weighting, bonuses, capping,
  thresholding, ranking, selection) is embedded from the source.
-/

set_option maxRecDepth 2000

namespace SmartRecon

/-! ## Character and string utilities

Structural (kernel-reducible) implementations of the Python string
operations used by the engines.
-/

/-- Splits a character list into maximal whitespace-free words, the model
of the Python idiom str.split() with no argument. -/
def wordsAux (acc : List Char) : List Char → List (List Char)
  | [] => if acc.isEmpty then [] else [acc.reverse]
  | c :: cs =>
    if c.isWhitespace then
      if acc.isEmpty then wordsAux [] cs else acc.reverse :: wordsAux [] cs
    else
      wordsAux (c :: acc) cs

/-- Joins words with single spaces, the model of the Python idiom
given by joining a split with a single-space separator. -/
def joinWords : List (List Char) → List Char
  | [] => []
  | [w] => w
  | w :: ws => w ++ ' ' :: joinWords ws

/-- Collapses internal whitespace runs to single spaces and drops
leading and trailing whitespace. -/
def collapseWs (l : List Char) : List Char :=
  joinWords (wordsAux [] l)

/-- Drops leading and trailing whitespace, the model of str.strip(). -/
def trimChars (l : List Char) : List Char :=
  ((l.dropWhile Char.isWhitespace).reverse.dropWhile Char.isWhitespace).reverse

/-- ASCII lower-casing of a character list, the model of str.lower(). -/
def lowerChars (l : List Char) : List Char :=
  l.map Char.toLower

/-- Decides whether the second list occurs as a contiguous block at the
head of the first list. -/
def leadsWith : List Char → List Char → Bool
  | _, [] => true
  | [], _ :: _ => false
  | a :: as, b :: bs => a == b && leadsWith as bs

/-- Decides whether needle occurs contiguously anywhere in hay, the model
of re.search for a plain-text pattern (and of the in operator). -/
def containsSeq (hay needle : List Char) : Bool :=
  match hay with
  | [] => needle.isEmpty
  | _ :: rest => leadsWith hay needle || containsSeq rest needle

/-- String-level wrapper of containsSeq. -/
def containsStr (hay needle : String) : Bool :=
  containsSeq hay.data needle.data

/-- String-level lower-casing. -/
def strLower (s : String) : String :=
  String.mk (lowerChars s.data)

/-! ## Data model

One prepared record per DataFrame row, as produced by
ExactMatchingEngine._prepare_exact_matching_data: the raw columns after
coercing parses.  Derived key columns are pure functions of these
fields, mirroring the source where each derived column is computed
row-wise from the same fields (spec section 3: derived fields are pure
functions of the raw fields).
-/

/-- One transaction record: original_index, coerced date, coerced
amount, raw description, raw reference (empty when the column is
missing or the value is null). -/
structure PrepRecord where
  idx : Nat
  date : Option Int
  amount : Option Rat
  description : String
  reference : String
deriving DecidableEq, Repr

/-- ExactMatchingEngine._normalize_description with the default
parameters (remove_whitespace, lower-casing, currency symbol removal):
collapse whitespace, lower-case, drop currency symbols and commas,
strip. -/
def normalizeDescription (s : String) : String :=
  String.mk (trimChars ((lowerChars (collapseWs s.data)).filter
    (fun c => !(c == '$' || c == '€' || c == '£' || c == ','))))

/-- ExactMatchingEngine._normalize_reference: empty for the textual
null markers, otherwise strip, lower-case and drop dashes, underscores
and spaces. -/
def normalizeReference (s : String) : String :=
  if strLower s == "nan" || strLower s == "none" || strLower s == "" then ""
  else String.mk (((trimChars s.data).map Char.toLower).filter
    (fun c => !(c == '-' || c == '_' || c == ' ')))

/-- Text rendering of an integer used inside matching keys. -/
def intKey (n : Int) : String := toString n

/-- Rounding to two decimal places (the default amount_precision), the
model of pandas round applied to the amount column.  The claims never
exercise an exact midpoint, so the tie-breaking mode is immaterial. -/
def round2 (a : Rat) : Rat := (round (a * 100) : Int) / 100

/-- Text rendering of a rounded amount inside matching keys.  The
Python engine renders the rounded float with two decimals; the
rendering here is likewise injective on rounded values. -/
def qKey (q : Rat) : String := intKey q.num ++ "/" ++ toString q.den

/-- Rendering of the date column inside an f-string key: a NaT value
prints as the literal text nan. -/
def dateKeyStr (d : Option Int) : String :=
  match d with
  | some n => intKey n
  | none => "nan"

/-- Rendering of the rounded amount column inside an f-string key: a
NaN value prints as the literal text nan. -/
def amountKeyStr (a : Option Rat) : String :=
  match a with
  | some q => qKey (round2 q)
  | none => "nan"

/-- The amount_date_key column: date text, underscore, rounded amount
text. -/
def amountDateKey (r : PrepRecord) : String :=
  dateKeyStr r.date ++ "_" ++ amountKeyStr r.amount

/-- The description_normalized column. -/
def descNorm (r : PrepRecord) : String := normalizeDescription r.description

/-- The reference_normalized column. -/
def refNorm (r : PrepRecord) : String := normalizeReference r.reference

/-- The amount_date_desc_key used by the amount_date_desc strategy:
amount_date_key plus the first twenty characters of the normalized
description. -/
def amountDateDescKey (r : PrepRecord) : String :=
  amountDateKey r ++ "_" ++ String.mk ((descNorm r).data.take 20)

/-- The composite_key column: the pipe-joined canonical fields (md5 of
this string in the source, modelled injectively by the string itself).
The description contributes its first thirty normalized characters. -/
def compositeKey (r : PrepRecord) : String :=
  dateKeyStr r.date ++ "|" ++ amountKeyStr r.amount ++ "|" ++
    String.mk ((descNorm r).data.take 30) ++ "|" ++ refNorm r

/-- One produced match: the strategy label, the confidence on the
engine scale, and the two paired records. -/
structure MatchRec where
  strategy : String
  confidence : Rat
  glRec : PrepRecord
  bankRec : PrepRecord
deriving DecidableEq, Repr

/-! ## Exact matching strategies

Embedding of ExactMatchingEngine._match_by_reference,
_match_by_amount_date, _match_by_amount_date_description,
_match_by_composite_key and _match_by_amount_tolerance.

The first four strategies are a pandas inner merge on a key column
followed by removal, from both pools, of every original_index that
occurs in the merge result.  An inner merge emits one row per pair of
key-equal rows, in left-row order then right-row order, which is the
cross product inside every key group.
-/

/-- All key-equal cross pairs between the eligible rows of the two
pools, in merge order: the model of pd.merge with an inner join on the
key column after filtering both sides with the eligibility test. -/
def mergePairs (key : PrepRecord → String) (good : PrepRecord → Bool)
    (gl bank : List PrepRecord) : List (PrepRecord × PrepRecord) :=
  (gl.filter good).flatMap (fun g =>
    ((bank.filter good).filter (fun b => key b == key g)).map (fun b => (g, b)))

/-- One key-based exact strategy: emit a confidence-one match per
merged pair and remove every matched original_index from each pool. -/
def matchByKey (name : String) (key : PrepRecord → String)
    (good : PrepRecord → Bool) (gl bank : List PrepRecord) :
    List MatchRec × List PrepRecord × List PrepRecord :=
  let ms := (mergePairs key good gl bank).map (fun p =>
    { strategy := name, confidence := 1, glRec := p.1, bankRec := p.2 })
  (ms, gl.filter (fun g => !((ms.map (fun m => m.glRec.idx)).contains g.idx)),
       bank.filter (fun b => !((ms.map (fun m => m.bankRec.idx)).contains b.idx)))

/-- Amount comparison of the amount_tolerance strategy: the absolute
difference of the raw numeric amounts is within the tolerance.  A NaN
amount fails every comparison, as in Python float semantics. -/
def amountDiffOk (a b : Option Rat) (tol : Rat) : Bool :=
  match a, b with
  | some x, some y => decide (|x - y| ≤ tol)
  | _, _ => false

/-- Date comparison of the amount_tolerance strategy, performed on the
date_str column values: two NaT values compare unequal because NaN is
not equal to itself in Python. -/
def dateStrEqB (a b : Option Int) : Bool :=
  match a, b with
  | some x, some y => x == y
  | _, _ => false

/-- Absolute amount difference of a pair already known to have numeric
amounts (zero otherwise; never reached on emitted matches). -/
def optAbsDiff (a b : Option Rat) : Rat :=
  match a, b with
  | some x, some y => |x - y|
  | _, _ => 0

/-- The pairing condition of the amount_tolerance strategy. -/
def tolPred (tol : Rat) (g b : PrepRecord) : Bool :=
  amountDiffOk g.amount b.amount tol && dateStrEqB g.date b.date

/-- The match record emitted by the amount_tolerance strategy, with its
slightly reduced confidence. -/
def mkTolMatch (tol : Rat) (g b : PrepRecord) : MatchRec :=
  { strategy := "amount_tolerance"
    confidence := 1 - optAbsDiff g.amount b.amount / tol * (1 / 10)
    glRec := g
    bankRec := b }

/-- Extracts the first element satisfying the test, together with the
rest of the list in order: the model of scanning the bank rows and
marking the first in-tolerance one as matched. -/
def extractFirst {α : Type} (p : α → Bool) : List α → Option (α × List α)
  | [] => none
  | x :: xs =>
    if p x then some (x, xs)
    else
      match extractFirst p xs with
      | some (y, ys) => some (y, x :: ys)
      | none => none

/-- The amount_tolerance strategy: a greedy nested scan pairing each
remaining internal row with the first still-unmatched external row
whose amount is within tolerance on the same date, then removing the
paired rows from both pools. -/
def matchByTolerance (tol : Rat) :
    List PrepRecord → List PrepRecord →
    List MatchRec × List PrepRecord × List PrepRecord
  | [], bank => ([], [], bank)
  | g :: gs, bank =>
    match extractFirst (fun b => tolPred tol g b) bank with
    | some (b, bankRest) =>
      let r := matchByTolerance tol gs bankRest
      (mkTolMatch tol g b :: r.1, r.2.1, r.2.2)
    | none =>
      let r := matchByTolerance tol gs bank
      (r.1, g :: r.2.1, r.2.2)

/-- ExactMatchingEngine._apply_exact_matching_strategy: dispatch on the
strategy name; an unknown name changes nothing. -/
def applyStrategy (tol : Rat) (name : String) (gl bank : List PrepRecord) :
    List MatchRec × List PrepRecord × List PrepRecord :=
  if name == "reference_exact" then
    matchByKey "reference_exact" refNorm (fun r => refNorm r != "") gl bank
  else if name == "amount_date_exact" then
    matchByKey "amount_date_exact" amountDateKey (fun _ => true) gl bank
  else if name == "amount_date_desc" then
    matchByKey "amount_date_description" amountDateDescKey (fun _ => true) gl bank
  else if name == "composite_key" then
    matchByKey "composite_key" compositeKey (fun _ => true) gl bank
  else if name == "amount_tolerance" then
    matchByTolerance tol gl bank
  else
    ([], gl, bank)

/-- ExactMatchingEngine._get_default_strategies, in order. -/
def defaultStrategies : List String :=
  ["reference_exact", "amount_date_exact", "amount_date_desc",
   "composite_key", "amount_tolerance"]

/-- The strategy loop of reconcile_exact_matches: apply each strategy
to the remaining pools, accumulating matches. -/
def runStrategies (tol : Rat) :
    List String → List PrepRecord → List PrepRecord →
    List MatchRec × List PrepRecord × List PrepRecord
  | [], gl, bank => ([], gl, bank)
  | s :: rest, gl, bank =>
    let step := applyStrategy tol s gl bank
    let further := runStrategies tol rest step.2.1 step.2.2
    (step.1 ++ further.1, further.2.1, further.2.2)

/-! ## Validation and the reconciliation session -/

/-- The shape of one input DataFrame as far as validation observes it:
whether the required columns are present, and the rows. -/
structure InputTable where
  hasDate : Bool
  hasAmount : Bool
  hasDescription : Bool
  rows : List PrepRecord
deriving Repr

/-- ExactMatchingEngine._validate_reconciliation_data: empty-input and
missing-column checks for both sides, in source order.  The data
quality checks that follow in the source only log warnings and never
fail. -/
def validateReconciliationData (gl bank : InputTable) : Except String Unit :=
  if gl.rows.length == 0 then .error "GL data is empty"
  else if !(gl.hasDate && gl.hasAmount && gl.hasDescription) then
    .error "GL data missing required columns"
  else if bank.rows.length == 0 then .error "Bank data is empty"
  else if !(bank.hasDate && bank.hasAmount && bank.hasDescription) then
    .error "Bank data missing required columns"
  else .ok ()

/-- The result object of the exact chain: accumulated matches and the
two residual pools. -/
structure ExactSession where
  matchList : List MatchRec
  unmatchedGl : List PrepRecord
  unmatchedBank : List PrepRecord
deriving DecidableEq, Repr

/-- ExactMatchingEngine.reconcile_exact_matches with the default
strategies: validate first and abort on failure (the raised validation
error is wrapped into a single engine failure), otherwise run the
strategy chain and return the session. -/
def reconcileExactMatches (tol : Rat) (gl bank : InputTable) :
    Except String ExactSession :=
  match validateReconciliationData gl bank with
  | .error e => .error ("Reconciliation failed: " ++ e)
  | .ok _ =>
    let r := runStrategies tol defaultStrategies gl.rows bank.rows
    .ok { matchList := r.1, unmatchedGl := r.2.1, unmatchedBank := r.2.2 }

/-- Counts indices that repeat an earlier occurrence, the scan used by
_validate_match_results. -/
def dupCountAux (seen : List Nat) : List Nat → Nat
  | [] => 0
  | x :: xs => (if seen.contains x then 1 else 0) + dupCountAux (x :: seen) xs

/-- ExactMatchingEngine._validate_match_results, duplicate_matches
field: how many match records reuse an already-matched GL index plus
how many reuse an already-matched bank index. -/
def duplicateMatches (ms : List MatchRec) : Nat :=
  dupCountAux [] (ms.map (fun m => m.glRec.idx)) +
    dupCountAux [] (ms.map (fun m => m.bankRec.idx))

/-- ExactMatchingEngine._validate_match_results, data_integrity field:
true exactly when no duplicate matches were found. -/
def dataIntegrity (ms : List MatchRec) : Bool :=
  duplicateMatches ms == 0

/-! ## Fuzzy matching engine

Embedding of FuzzyMatcher.  The five similarity algorithms live in
external libraries; they enter as an oracle.  Field names spell the
source algorithm names out: charRatioVal is the plain character ratio,
partRatioVal the substring ratio, tokenSortVal and tokenSetVal the two
token ratios, jaroWinklerVal the scaled Jaro-Winkler score.
-/

/-- The five per-algorithm similarity scores, each on the 0 to 100
scale of the source libraries. -/
structure SimScores where
  charRatioVal : Rat
  partRatioVal : Rat
  tokenSortVal : Rat
  tokenSetVal : Rat
  jaroWinklerVal : Rat
deriving DecidableEq, Repr

/-- The external similarity libraries as an oracle on the normalized
strings. -/
def SimOracle : Type := String → String → SimScores

/-- The all-zero score vector returned for an empty operand. -/
def zeroScores : SimScores := ⟨0, 0, 0, 0, 0⟩

/-- The FuzzyMatcher parameters: thresholds, tolerances and the
per-algorithm weights. -/
structure FuzzyParams where
  minConfidence : Rat
  autoThreshold : Rat
  relAmountTol : Rat
  dateTolDays : Int
  wChar : Rat
  wPart : Rat
  wTokenSort : Rat
  wTokenSet : Rat
  wJaro : Rat
deriving Repr

/-- The defaults hard-coded in FuzzyMatcher.__init__. -/
def defaultFuzzyParams : FuzzyParams :=
  { minConfidence := 70
    autoThreshold := 85
    relAmountTol := 1 / 100
    dateTolDays := 5
    wChar := 3 / 10
    wPart := 2 / 10
    wTokenSort := 2 / 10
    wTokenSet := 2 / 10
    wJaro := 1 / 10 }

/-- helpers.normalize_text with its default flags: collapse whitespace,
lower-case, keep only ASCII alphanumerics, whitespace, dash and dot,
strip. -/
def normalizeText (s : String) : String :=
  String.mk (trimChars ((lowerChars (collapseWs s.data)).filter
    (fun c => c.isAlphanum || c.isWhitespace || c == '-' || c == '.')))

/-- FuzzyMatcher.calculate_string_similarity: zero scores when either
operand is empty, otherwise the library scores of the normalized
operands. -/
def calculateStringSimilarity (sim : SimOracle) (s1 s2 : String) : SimScores :=
  if s1 == "" || s2 == "" then zeroScores
  else sim (normalizeText s1) (normalizeText s2)

/-- The weighted string similarity used inside
calculate_composite_confidence. -/
def stringScore (p : FuzzyParams) (s : SimScores) : Rat :=
  s.charRatioVal * p.wChar + s.partRatioVal * p.wPart +
    s.tokenSortVal * p.wTokenSort + s.tokenSetVal * p.wTokenSet +
    s.jaroWinklerVal * p.wJaro

/-- FuzzyMatcher.calculate_composite_confidence: the weighted string
score, a twenty percent bonus when the amounts match, a further ten
percent bonus when the dates match, capped at one hundred. -/
def calculateCompositeConfidence (p : FuzzyParams) (s : SimScores)
    (amountMatch dateMatch : Bool) : Rat :=
  let base := stringScore p s
  let withAmount := if amountMatch then base * (12 / 10) else base
  let withDate := if dateMatch then withAmount * (11 / 10) else withAmount
  min withDate 100

/-- FuzzyMatcher.check_amount_match: relative tolerance proportional to
the larger magnitude; NaN operands never match. -/
def checkAmountMatch (p : FuzzyParams) (a b : Option Rat) : Bool :=
  match a, b with
  | some x, some y => decide (|x - y| ≤ max |x| |y| * p.relAmountTol)
  | _, _ => false

/-- FuzzyMatcher.check_date_match: absolute day difference within the
window; NaT operands never match. -/
def checkDateMatch (p : FuzzyParams) (d1 d2 : Option Int) : Bool :=
  match d1, d2 with
  | some x, some y => decide (|x - y| ≤ p.dateTolDays)
  | _, _ => false

/-- One scored candidate pair as appended to best_matches. -/
structure FuzzyMatchInfo where
  glIdx : Nat
  bankIdx : Nat
  glRec : PrepRecord
  bankRec : PrepRecord
  confidence : Rat
  amountMatch : Bool
  dateMatch : Bool
deriving DecidableEq, Repr

/-- Scoring of one candidate pair inside find_fuzzy_matches. -/
def scorePair (p : FuzzyParams) (sim : SimOracle) (g b : PrepRecord) :
    FuzzyMatchInfo :=
  let s := calculateStringSimilarity sim g.description b.description
  let am := checkAmountMatch p g.amount b.amount
  let dm := checkDateMatch p g.date b.date
  { glIdx := g.idx
    bankIdx := b.idx
    glRec := g
    bankRec := b
    confidence := calculateCompositeConfidence p s am dm
    amountMatch := am
    dateMatch := dm }

/-- Descending stable order on confidence, the comparison used by the
reverse sort of best_matches.  Python list sort is stable, and so is
List.insertionSort, so the two agree on ties. -/
def confGE (a b : FuzzyMatchInfo) : Prop := b.confidence ≤ a.confidence

instance : DecidableRel confGE := fun a b => by
  unfold confGE
  infer_instance

/-- The per-internal-record body of the find_fuzzy_matches loop: score
every external record, keep candidates at or above the minimum floor,
sort by confidence descending, keep the top three, and split them into
auto matches (at or above the auto threshold) and potential matches
(below it but still at or above the floor). -/
def glBlock (p : FuzzyParams) (sim : SimOracle) (bank : List PrepRecord)
    (g : PrepRecord) : List FuzzyMatchInfo × List FuzzyMatchInfo :=
  let cands := (bank.map (scorePair p sim g)).filter
    (fun m => decide (p.minConfidence ≤ m.confidence))
  let top := (cands.insertionSort confGE).take 3
  (top.filter (fun m => decide (p.autoThreshold ≤ m.confidence)),
   top.filter (fun m =>
     !(decide (p.autoThreshold ≤ m.confidence)) &&
       decide (p.minConfidence ≤ m.confidence)))

/-- FuzzyMatcher.find_fuzzy_matches: the auto-accepted fuzzy matches
and the potential matches, each accumulated over the internal records
in input order. -/
def findFuzzyMatches (p : FuzzyParams) (sim : SimOracle)
    (gl bank : List PrepRecord) : List FuzzyMatchInfo × List FuzzyMatchInfo :=
  (gl.flatMap (fun g => (glBlock p sim bank g).1),
   gl.flatMap (fun g => (glBlock p sim bank g).2))

/-- FuzzyMatcher.get_unmatched_records: drop from each pool exactly the
indices that occur in the auto-accepted fuzzy matches.  Potential
matches are not consulted. -/
def getUnmatchedRecords (gl bank : List PrepRecord)
    (fuzzy : List FuzzyMatchInfo) : List PrepRecord × List PrepRecord :=
  let mg := fuzzy.map (fun m => m.glIdx)
  let mb := fuzzy.map (fun m => m.bankIdx)
  (gl.filter (fun r => !(mg.contains r.idx)),
   bank.filter (fun r => !(mb.contains r.idx)))

/-- The composed pipeline of the specification: the exact chain, then
fuzzy matching over the exact-chain remainders, then the residual
unmatched pools. -/
structure Session where
  exactMatches : List MatchRec
  fuzzyMatches : List FuzzyMatchInfo
  potentialMatches : List FuzzyMatchInfo
  unmatchedGl : List PrepRecord
  unmatchedBank : List PrepRecord
deriving DecidableEq, Repr

/-- Runs the exact chain and then the fuzzy stage over its remainders,
collecting the full session. -/
def runPipeline (tol : Rat) (p : FuzzyParams) (sim : SimOracle)
    (gl bank : InputTable) : Except String Session :=
  match reconcileExactMatches tol gl bank with
  | .error e => .error e
  | .ok s =>
    let f := findFuzzyMatches p sim s.unmatchedGl s.unmatchedBank
    let u := getUnmatchedRecords s.unmatchedGl s.unmatchedBank f.1
    .ok { exactMatches := s.matchList
          fuzzyMatches := f.1
          potentialMatches := f.2
          unmatchedGl := u.1
          unmatchedBank := u.2 }

/-! ## Exception categorization

Embedding of ExceptionHandler._initialize_categories and
_classify_record.
-/

/-- The fixed category taxonomy. -/
inductive ExCategory where
  | timingDifferences
  | amountDifferences
  | missingTransactions
  | duplicateTransactions
  | systemSpecific
  | dataQualityIssues
  | unknown
deriving DecidableEq, Repr

/-- The text patterns of each category, in source order.  Every pattern
is a plain lower-case word, so re.search is plain substring search. -/
def categoryPatterns : ExCategory → List String
  | .timingDifferences => ["pending", "processing", "clearing"]
  | .amountDifferences => ["fee", "charge", "adjustment", "correction"]
  | .missingTransactions => ["transfer", "internal", "journal"]
  | .duplicateTransactions => ["duplicate", "reversal", "void"]
  | .systemSpecific => ["accrual", "provision", "allocation"]
  | .dataQualityIssues => ["invalid", "error", "missing"]
  | .unknown => []

/-- The auto_resolvable flag of each category. -/
def autoResolvable : ExCategory → Bool
  | .timingDifferences => true
  | .amountDifferences => false
  | .missingTransactions => false
  | .duplicateTransactions => true
  | .systemSpecific => true
  | .dataQualityIssues => false
  | .unknown => false

/-- The resolution_priority label of each category. -/
def resolutionLabel : ExCategory → String
  | .timingDifferences => "low"
  | .amountDifferences => "high"
  | .missingTransactions => "medium"
  | .duplicateTransactions => "medium"
  | .systemSpecific => "low"
  | .dataQualityIssues => "high"
  | .unknown => "medium"

/-- The dictionary iteration order of the pattern scan in
_classify_record; the unknown entry is skipped by the loop. -/
def categoryOrder : List ExCategory :=
  [.timingDifferences, .amountDifferences, .missingTransactions,
   .duplicateTransactions, .systemSpecific, .dataQualityIssues]

/-- Position of a category in the scan order (unknown comes last and
is never scanned). -/
def catRank : ExCategory → Nat
  | .timingDifferences => 0
  | .amountDifferences => 1
  | .missingTransactions => 2
  | .duplicateTransactions => 3
  | .systemSpecific => 4
  | .dataQualityIssues => 5
  | .unknown => 6

/-- Whether any pattern of the category occurs in the lower-cased
description. -/
def matchesCategory (descLower : String) (c : ExCategory) : Bool :=
  (categoryPatterns c).any (fun pat => containsStr descLower pat)

/-- Python float modulo test amount mod one hundred equals zero: the
amount is an integer multiple of one hundred. -/
def isMultipleOf100 (a : Rat) : Bool :=
  (a / 100).den == 1

/-- ExceptionHandler._classify_record: scan the categories in fixed
order for a text pattern hit (first match wins), then fall back to the
amount-shape rules, then unknown. -/
def classifyRecord (description : String) (amount : Rat) : ExCategory :=
  let d := strLower description
  match categoryOrder.find? (fun c => matchesCategory d c) with
  | some c => c
  | none =>
    if |amount| < 10 then .amountDifferences
    else if isMultipleOf100 amount && |amount| > 1000 then .systemSpecific
    else .unknown

/-! ## Auxiliary predicates and concrete instances

Predicates naming the library contracts assumed from the external
similarity libraries, and concrete records used to evaluate the
pipeline on specific inputs.
-/

/-- All five algorithm weights are nonnegative (true of the default
configuration). -/
def WeightsNonneg (p : FuzzyParams) : Prop :=
  0 ≤ p.wChar ∧ 0 ≤ p.wPart ∧ 0 ≤ p.wTokenSort ∧ 0 ≤ p.wTokenSet ∧ 0 ≤ p.wJaro

/-- The similarity oracle only emits nonnegative scores, the documented
contract of the external libraries. -/
def OracleNonneg (sim : SimOracle) : Prop :=
  ∀ s1 s2, 0 ≤ (sim s1 s2).charRatioVal ∧ 0 ≤ (sim s1 s2).partRatioVal ∧
    0 ≤ (sim s1 s2).tokenSortVal ∧ 0 ≤ (sim s1 s2).tokenSetVal ∧
    0 ≤ (sim s1 s2).jaroWinklerVal

/-- A constant score vector. -/
def simAllQ (q : Rat) : SimScores := ⟨q, q, q, q, q⟩

/-- Oracle instantiation of the similarity libraries at inputs where
their value is forced: on identical nonempty strings every one of the
five algorithms returns one hundred, on the other concrete inputs used
below they return zero. -/
def simEqOracle : SimOracle :=
  fun s1 s2 => if s1 == s2 then simAllQ 100 else simAllQ 0

/-- Oracle returning a constant score vector, used to exhibit a
mid-band candidate pair. -/
def simConstOracle (q : Rat) : SimOracle := fun _ _ => simAllQ q

/-- Two internal records sharing date and amount (claim one input). -/
def c1RecGl0 : PrepRecord := ⟨0, some 10, some 100, "alpha pay", ""⟩

/-- Second internal record of the claim one input. -/
def c1RecGl1 : PrepRecord := ⟨1, some 10, some 100, "beta pay", ""⟩

/-- Single external record of the claim one input. -/
def c1RecBank0 : PrepRecord := ⟨0, some 10, some 100, "gamma pay", ""⟩

/-- Internal table of the claim one input. -/
def c1GlTable : InputTable := ⟨true, true, true, [c1RecGl0, c1RecGl1]⟩

/-- External table of the claim one input. -/
def c1BankTable : InputTable := ⟨true, true, true, [c1RecBank0]⟩

/-- Internal record of the claim two input. -/
def c2RecGl : PrepRecord := ⟨0, some 10, some 100, "alpha", ""⟩

/-- First external record of the claim two input. -/
def c2RecBank0 : PrepRecord := ⟨0, some 10, some 100, "alpha", ""⟩

/-- Second external record of the claim two input. -/
def c2RecBank1 : PrepRecord := ⟨1, some 10, some 100, "alpha", ""⟩

/-- Internal records of the claim three input. -/
def c3RecGl0 : PrepRecord := ⟨0, some 7, some 50, "aa", ""⟩

/-- Second internal record of the claim three input. -/
def c3RecGl1 : PrepRecord := ⟨1, some 7, some 50, "bb", ""⟩

/-- External record of the claim three input. -/
def c3RecBank0 : PrepRecord := ⟨0, some 7, some 50, "cc", ""⟩

/-- Internal table of the claim three input. -/
def c3GlTable : InputTable := ⟨true, true, true, [c3RecGl0, c3RecGl1]⟩

/-- External table of the claim three input. -/
def c3BankTable : InputTable := ⟨true, true, true, [c3RecBank0]⟩

/-- Matching single-record tables used by witnesses of the amended
conservation statement. -/
def c3wRecGl : PrepRecord := ⟨0, some 1, some 5, "ww", ""⟩

/-- External record matching c3wRecGl on date and amount. -/
def c3wRecBank : PrepRecord := ⟨0, some 1, some 5, "vv", ""⟩

/-- Internal witness table for conservation. -/
def c3wGlTable : InputTable := ⟨true, true, true, [c3wRecGl]⟩

/-- External witness table for conservation. -/
def c3wBankTable : InputTable := ⟨true, true, true, [c3wRecBank]⟩

/-- External table with one row, used by the validation witness. -/
def c4BankTable : InputTable := ⟨true, true, true, [⟨0, some 1, some 2, "x", ""⟩]⟩

/-- Empty internal table, used by the validation witness. -/
def c4EmptyGlTable : InputTable := ⟨true, true, true, []⟩

/-- Internal record of the claim five counterexample (equal amounts). -/
def c5RecGl : PrepRecord := ⟨0, some 3, some 200, "xx", ""⟩

/-- External record of the claim five counterexample. -/
def c5RecBank : PrepRecord := ⟨0, some 3, some 200, "yy", ""⟩

/-- Internal record of the claim five witness (difference exactly one
cent). -/
def c5wRecGl : PrepRecord := ⟨0, some 3, some 3, "xx", ""⟩

/-- External record of the claim five witness. -/
def c5wRecBank : PrepRecord := ⟨0, some 3, some (3 + 1 / 100), "yy", ""⟩

/-- The match emitted by the tolerance strategy on the claim five
witness input. -/
def c5wMatch : MatchRec := mkTolMatch (1 / 100) c5wRecGl c5wRecBank

/-- Internal record of the claim six counterexample. -/
def c6RecGl : PrepRecord := ⟨0, some 4, some 77, "pp", ""⟩

/-- External record of the claim six counterexample. -/
def c6RecBank : PrepRecord := ⟨0, some 4, some 77, "qq", ""⟩

/-- Internal record with an unparseable date (claim seven input). -/
def c7RecGl : PrepRecord := ⟨0, none, some 100, "aa", ""⟩

/-- External record with an unparseable date and the same amount
(claim seven input). -/
def c7RecBank : PrepRecord := ⟨0, none, some 100, "bb", ""⟩

/-- Internal table of the claim seven input. -/
def c7GlTable : InputTable := ⟨true, true, true, [c7RecGl]⟩

/-- External table of the claim seven input. -/
def c7BankTable : InputTable := ⟨true, true, true, [c7RecBank]⟩

/-- Internal record of the claim nine witness: its only candidate falls
in the manual-review band. -/
def c9RecGl : PrepRecord := ⟨0, some 0, some 10, "aaa", ""⟩

/-- External record of the claim nine witness, far in amount and date
so no bonus applies. -/
def c9RecBank : PrepRecord := ⟨0, some 100, some 99, "bbb", ""⟩

/-- Internal record of the claim ten witness. -/
def c10RecGl : PrepRecord := ⟨5, some 2, some 40, "pay abc", ""⟩

/-- External record of the claim ten witness. -/
def c10RecBank : PrepRecord := ⟨7, some 2, some 40, "pay abc", ""⟩

/-- The scored pair of the claim ten witness. -/
def c10Match : FuzzyMatchInfo :=
  scorePair defaultFuzzyParams simEqOracle c10RecGl c10RecBank

/-- Internal record of the claim six witness. -/
def c6wRecGl : PrepRecord := ⟨0, some 9, some 31, "mm", ""⟩

/-- External record of the claim six witness. -/
def c6wRecBank : PrepRecord := ⟨0, some 9, some 31, "nn", ""⟩

/-- The match the chain emits on the claim six witness input. -/
def c6wMatch : MatchRec := ⟨"amount_date_exact", 1, c6wRecGl, c6wRecBank⟩

/-- Internal record with a description equal to its counterpart, for
the fuzzy half of the claim six witness. -/
def c6wFglRec : PrepRecord := ⟨0, some 9, some 31, "same", ""⟩

/-- External record with a description equal to its counterpart, for
the fuzzy half of the claim six witness. -/
def c6wFbankRec : PrepRecord := ⟨0, some 9, some 31, "same", ""⟩

/-- The scored pair of the fuzzy half of the claim six witness. -/
def c6wFuzzy : FuzzyMatchInfo :=
  scorePair defaultFuzzyParams simEqOracle c6wFglRec c6wFbankRec

/-- The match the chain emits on the conservation witness input. -/
def c3wExpectedMatch : MatchRec := ⟨"amount_date_exact", 1, c3wRecGl, c3wRecBank⟩

/-- The exact session computed on the conservation witness input. -/
def c3wExpectedSession : ExactSession := ⟨[c3wExpectedMatch], [], []⟩

/-- The full session computed on the conservation witness input. -/
def c3wExpectedFull : Session := ⟨[c3wExpectedMatch], [], [], [], []⟩

/-- The scored pair of the claim nine witness, landing in the
manual-review band. -/
def c9PotMatch : FuzzyMatchInfo :=
  scorePair defaultFuzzyParams (simConstOracle 75) c9RecGl c9RecBank

/-! ## General list lemmas -/

/-- Filtering with a test and with its negation partitions the length. -/
theorem length_filter_not_add {α : Type} (p : α → Bool) (l : List α) :
    (l.filter p).length + (l.filter (fun a => !(p a))).length = l.length := by
  induction l with
  | nil => rfl
  | cons a l ih =>
    by_cases h : p a = true <;> simp [List.filter_cons, h] <;> omega

/-- Membership reading of the boolean contains test on index lists. -/
theorem contains_iff_mem {α : Type} [BEq α] [LawfulBEq α] (l : List α) (x : α) :
    l.contains x = true ↔ x ∈ l :=
  List.elem_iff

/-- The boolean contains test on a cons cell. -/
theorem contains_cons {α : Type} [BEq α] (i x : α) (l : List α) :
    ((i :: l).contains x) = (x == i || l.contains x) := by
  rfl

/-- The boolean contains test distributes over append. -/
theorem contains_append {α : Type} [BEq α] [LawfulBEq α] (l₁ l₂ : List α) (x : α) :
    (l₁ ++ l₂).contains x = (l₁.contains x || l₂.contains x) := by
  induction l₁ with
  | nil => rfl
  | cons a l ih =>
    rw [List.cons_append, contains_cons, contains_cons, ih, Bool.or_assoc]

/-- Filtering records on an index test and then projecting the index is
the same as projecting and then filtering. -/
theorem filter_map_idx (l : List PrepRecord) (p : Nat → Bool) :
    ((l.filter (fun r => p r.idx)).map (fun r => r.idx))
      = (l.map (fun r => r.idx)).filter p := by
  induction l with
  | nil => rfl
  | cons a l ih =>
    by_cases h : p a.idx = true <;> simp [List.filter_cons, h, ih]

/-- A duplicate-free index list covered by a duplicate-free carrier
list selects exactly its own length. -/
theorem length_filter_contains (L G : List Nat) (hL : L.Nodup) (hG : G.Nodup)
    (hsub : ∀ g ∈ G, g ∈ L) :
    (L.filter (fun i => G.contains i)).length = G.length := by
  have h1 : (L.filter (fun i => G.contains i)).Nodup :=
    List.Nodup.sublist (List.filter_sublist L) hL
  have h2 : ∀ a, a ∈ L.filter (fun i => G.contains i) ↔ a ∈ G := by
    intro a
    rw [List.mem_filter]
    constructor
    · rintro ⟨-, h⟩
      exact (contains_iff_mem G a).1 h
    · intro h
      exact ⟨hsub a h, (contains_iff_mem G a).2 h⟩
  exact ((List.perm_ext_iff_of_nodup h1 hG).2 h2).length_eq

/-- Record-list version of length_filter_contains: the records whose
index lies in a covered duplicate-free index list are counted by that
list. -/
theorem length_filter_contains_rec (l : List PrepRecord) (G : List Nat)
    (hl : (l.map (fun r => r.idx)).Nodup) (hG : G.Nodup)
    (hsub : ∀ g ∈ G, g ∈ l.map (fun r => r.idx)) :
    (l.filter (fun r => G.contains r.idx)).length = G.length := by
  have := congrArg List.length (filter_map_idx l (fun i => G.contains i))
  rw [List.length_map] at this
  rw [this]
  exact length_filter_contains _ G hl hG hsub

/-! ## The extractFirst scan -/

/-- A successful extractFirst run returns a satisfying element and the
list with exactly that occurrence removed. -/
theorem extractFirst_eq_some {α : Type} (p : α → Bool) :
    ∀ (l rest : List α) (x : α), extractFirst p l = some (x, rest) →
      p x = true ∧ ∃ l₁ l₂, l = l₁ ++ x :: l₂ ∧ rest = l₁ ++ l₂ := by
  intro l
  induction l with
  | nil => intro rest x h; simp [extractFirst] at h
  | cons a l ih =>
    intro rest x h
    rw [extractFirst] at h
    by_cases hpa : p a = true
    · rw [if_pos hpa] at h
      obtain ⟨hx, hrest⟩ : a = x ∧ l = rest := by
        simpa using h
      subst hx; subst hrest
      exact ⟨hpa, [], l, rfl, rfl⟩
    · rw [if_neg hpa] at h
      cases he : extractFirst p l with
      | none => rw [he] at h; simp at h
      | some pr =>
        rw [he] at h
        obtain ⟨hx, hrest⟩ : pr.1 = x ∧ a :: pr.2 = rest := by
          cases pr; simpa using h
        subst hx
        obtain ⟨hpx, l₁, l₂, hl, hr⟩ := ih pr.2 pr.1 (by rw [he])
        refine ⟨hpx, a :: l₁, l₂, ?_, ?_⟩
        · rw [hl]; rfl
        · rw [← hrest, hr]; rfl

/-! ## The key-based strategies -/

/-- Every match of a key strategy carries confidence one, the strategy
name, two records drawn from the pools that are eligible and key-equal. -/
theorem matchByKey_mem (name : String) (key : PrepRecord → String)
    (good : PrepRecord → Bool) (gl bank : List PrepRecord) :
    ∀ m ∈ (matchByKey name key good gl bank).1,
      m.strategy = name ∧ m.confidence = 1 ∧ m.glRec ∈ gl ∧ m.bankRec ∈ bank := by
  intro m hm
  simp only [matchByKey, mergePairs, List.mem_map, List.mem_flatMap,
    List.mem_filter] at hm
  obtain ⟨pr, ⟨g, ⟨hg, -⟩, hb⟩, hmk⟩ := hm
  obtain ⟨b, ⟨⟨hbmem, -⟩, -⟩, hpr⟩ := hb
  subst hmk
  subst hpr
  exact ⟨rfl, rfl, hg, hbmem⟩

/-- The pools returned by a key strategy are the input pools with every
matched index removed. -/
theorem matchByKey_pools (name : String) (key : PrepRecord → String)
    (good : PrepRecord → Bool) (gl bank : List PrepRecord) :
    (matchByKey name key good gl bank).2.1
        = gl.filter (fun g =>
            !(((matchByKey name key good gl bank).1.map
              (fun m => m.glRec.idx)).contains g.idx)) ∧
      (matchByKey name key good gl bank).2.2
        = bank.filter (fun b =>
            !(((matchByKey name key good gl bank).1.map
              (fun m => m.bankRec.idx)).contains b.idx)) := by
  constructor <;> rfl

/-! ## The tolerance strategy -/

/-- Every match of the tolerance strategy is the canonical tolerance
match of two records drawn from the pools that satisfy the pairing
condition. -/
theorem matchByTolerance_mem (tol : Rat) :
    ∀ (gl bank : List PrepRecord), ∀ m ∈ (matchByTolerance tol gl bank).1,
      m = mkTolMatch tol m.glRec m.bankRec ∧
        tolPred tol m.glRec m.bankRec = true ∧
        m.glRec ∈ gl ∧ m.bankRec ∈ bank := by
  intro gl
  induction gl with
  | nil => intro bank m hm; simp [matchByTolerance] at hm
  | cons g gs ih =>
    intro bank m hm
    rw [matchByTolerance] at hm
    cases he : extractFirst (fun b => tolPred tol g b) bank with
    | some pr =>
      rw [he] at hm
      obtain ⟨hp, l₁, l₂, hbank, hrest⟩ :=
        extractFirst_eq_some _ bank pr.2 pr.1 (by rw [he])
      simp only [List.mem_cons] at hm
      cases hm with
      | inl h =>
        subst h
        refine ⟨rfl, hp, List.mem_cons_self g gs, ?_⟩
        rw [hbank]
        exact List.mem_append_right l₁ (List.mem_cons_self pr.1 l₂)
      | inr h =>
        obtain ⟨h1, h2, h3, h4⟩ := ih pr.2 m h
        refine ⟨h1, h2, List.mem_cons_of_mem g h3, ?_⟩
        rw [hbank]
        rw [hrest] at h4
        rcases List.mem_append.1 h4 with h5 | h5
        · exact List.mem_append_left _ h5
        · exact List.mem_append_right _ (List.mem_cons_of_mem pr.1 h5)
    | none =>
      rw [he] at hm
      obtain ⟨h1, h2, h3, h4⟩ := ih bank m hm
      exact ⟨h1, h2, List.mem_cons_of_mem g h3, h4⟩

/-- The residual pools of the tolerance strategy are drawn from the
input pools. -/
theorem matchByTolerance_subset (tol : Rat) :
    ∀ (gl bank : List PrepRecord),
      (∀ x ∈ (matchByTolerance tol gl bank).2.1, x ∈ gl) ∧
        (∀ x ∈ (matchByTolerance tol gl bank).2.2, x ∈ bank) := by
  intro gl
  induction gl with
  | nil =>
    intro bank
    constructor
    · intro x hx; simp [matchByTolerance] at hx
    · intro x hx; rw [matchByTolerance] at hx; exact hx
  | cons g gs ih =>
    intro bank
    rw [matchByTolerance]
    cases he : extractFirst (fun b => tolPred tol g b) bank with
    | some pr =>
      obtain ⟨hp, l₁, l₂, hbank, hrest⟩ :=
        extractFirst_eq_some _ bank pr.2 pr.1 (by rw [he])
      obtain ⟨ihg, ihb⟩ := ih pr.2
      constructor
      · intro x hx
        exact List.mem_cons_of_mem g (ihg x hx)
      · intro x hx
        have h4 := ihb x hx
        rw [hrest] at h4
        rw [hbank]
        rcases List.mem_append.1 h4 with h5 | h5
        · exact List.mem_append_left _ h5
        · exact List.mem_append_right _ (List.mem_cons_of_mem pr.1 h5)
    | none =>
      obtain ⟨ihg, ihb⟩ := ih bank
      constructor
      · intro x hx
        rcases List.mem_cons.1 hx with h | h
        · exact h ▸ List.mem_cons_self g gs
        · exact List.mem_cons_of_mem g (ihg x h)
      · exact ihb

/-- The pools returned by the tolerance strategy are the input pools
with the matched indices removed, provided indices are duplicate-free
on each side. -/
theorem matchByTolerance_pools (tol : Rat) :
    ∀ (gl bank : List PrepRecord),
      (gl.map (fun r => r.idx)).Nodup → (bank.map (fun r => r.idx)).Nodup →
      (matchByTolerance tol gl bank).2.1
          = gl.filter (fun g =>
              !(((matchByTolerance tol gl bank).1.map
                (fun m => m.glRec.idx)).contains g.idx)) ∧
        (matchByTolerance tol gl bank).2.2
          = bank.filter (fun b =>
              !(((matchByTolerance tol gl bank).1.map
                (fun m => m.bankRec.idx)).contains b.idx)) := by
  intro gl
  induction gl with
  | nil =>
    intro bank hgl hbank
    constructor
    · rfl
    · rw [matchByTolerance]
      exact (List.filter_eq_self.2 (by intro a ha; rfl)).symm
  | cons g gs ih =>
    intro bank hgl hbank
    have hgl2 : (gs.map (fun r => r.idx)).Nodup := (List.nodup_cons.1 hgl).2
    have hgidx : g.idx ∉ gs.map (fun r => r.idx) := (List.nodup_cons.1 hgl).1
    rw [matchByTolerance]
    cases he : extractFirst (fun b => tolPred tol g b) bank with
    | some pr =>
      obtain ⟨hp, l₁, l₂, hbank_eq, hrest⟩ :=
        extractFirst_eq_some _ bank pr.2 pr.1 (by rw [he])
      have hsub : (pr.2.map (fun r => r.idx)).Sublist
          (bank.map (fun r => r.idx)) := by
        rw [hbank_eq, hrest]
        exact List.Sublist.map _
          (List.Sublist.append_left (List.sublist_cons_self pr.1 l₂) l₁)
      have hbank2 : (pr.2.map (fun r => r.idx)).Nodup :=
        List.Nodup.sublist hsub hbank
      obtain ⟨ihg, ihb⟩ := ih pr.2 hgl2 hbank2
      constructor
      · show (matchByTolerance tol gs pr.2).2.1 = _
        rw [ihg, List.filter_cons]
        have hcond : (!(((mkTolMatch tol g pr.1 ::
            (matchByTolerance tol gs pr.2).1).map
            (fun m => m.glRec.idx)).contains g.idx)) = false := by
          rw [List.map_cons, contains_cons]
          simp [mkTolMatch]
        rw [hcond]
        simp only [Bool.false_eq_true, if_false]
        apply List.filter_congr
        intro x hx
        have hxg : (x.idx == g.idx) = false := by
          have : x.idx ≠ g.idx := by
            intro hcon
            exact hgidx (hcon ▸ List.mem_map_of_mem (fun r => r.idx) hx)
          simpa using this
        rw [List.map_cons, contains_cons]
        simp [mkTolMatch, hxg]
      · show (matchByTolerance tol gs pr.2).2.2 = _
        rw [ihb]
        set M := (matchByTolerance tol gs pr.2).1 with hM
        have hb1nodup : ∀ x ∈ l₁ ++ l₂, x.idx ≠ pr.1.idx := by
          intro x hx hcon
          have hnall : ((l₁ ++ pr.1 :: l₂).map (fun r => r.idx)).Nodup := by
            rw [← hbank_eq]; exact hbank
          rw [List.map_append, List.map_cons] at hnall
          have h1 := List.nodup_append.1 hnall
          rcases List.mem_append.1 hx with h5 | h5
          · exact (h1.2.2 (hcon ▸ List.mem_map_of_mem (fun r => r.idx) h5))
              (List.mem_cons_self _ _)
          · exact (List.nodup_cons.1 h1.2.1).1
              (hcon ▸ List.mem_map_of_mem (fun r => r.idx) h5)
        have hcongr : ∀ (l : List PrepRecord), (∀ x ∈ l, x.idx ≠ pr.1.idx) →
            l.filter (fun b =>
              !((M.map (fun m => m.bankRec.idx)).contains b.idx))
            = l.filter (fun b =>
              !(((mkTolMatch tol g pr.1 :: M).map
                (fun m => m.bankRec.idx)).contains b.idx)) := by
          intro l hl
          apply List.filter_congr
          intro x hx
          have hxb : (x.idx == pr.1.idx) = false := by simpa using hl x hx
          rw [List.map_cons, contains_cons]
          simp [mkTolMatch, hxb]
        rw [hrest, hbank_eq]
        rw [List.filter_append, List.filter_append, List.filter_cons]
        have hcond : (!(((mkTolMatch tol g pr.1 :: M).map
            (fun m => m.bankRec.idx)).contains pr.1.idx)) = false := by
          rw [List.map_cons, contains_cons]
          simp [mkTolMatch]
        rw [hcond]
        simp only [Bool.false_eq_true, if_false]
        rw [hcongr l₁ (fun x hx => hb1nodup x (List.mem_append_left _ hx)),
          hcongr l₂ (fun x hx => hb1nodup x (List.mem_append_right _ hx))]
    | none =>
      obtain ⟨ihg, ihb⟩ := ih bank hgl2 hbank
      constructor
      · show g :: (matchByTolerance tol gs bank).2.1 = _
        rw [List.filter_cons]
        have hcond : (!(((matchByTolerance tol gs bank).1.map
            (fun m => m.glRec.idx)).contains g.idx)) = true := by
          rw [Bool.not_eq_true']
          rw [Bool.eq_false_iff]
          intro hcon
          obtain ⟨m, hm, hmidx⟩ := List.mem_map.1 ((contains_iff_mem _ _).1 hcon)
          obtain ⟨-, -, h3, -⟩ := matchByTolerance_mem tol gs bank m hm
          exact hgidx (hmidx ▸ List.mem_map_of_mem (fun r => r.idx) h3)
        rw [hcond]
        simp only [if_true]
        rw [ihg]
      · show (matchByTolerance tol gs bank).2.2 = _
        rw [ihb]

/-! ## The strategy dispatcher and the chain -/

/-- Every match of a single strategy application pairs records from the
pools, and carries either confidence one or the canonical tolerance
match data. -/
theorem applyStrategy_mem (tol : Rat) (name : String) (gl bank : List PrepRecord) :
    ∀ m ∈ (applyStrategy tol name gl bank).1,
      m.glRec ∈ gl ∧ m.bankRec ∈ bank ∧
        (m.confidence = 1 ∨
          (m.strategy = "amount_tolerance" ∧
            m = mkTolMatch tol m.glRec m.bankRec ∧
            tolPred tol m.glRec m.bankRec = true)) := by
  intro m hm
  unfold applyStrategy at hm
  split at hm
  · obtain ⟨-, h2, h3, h4⟩ := matchByKey_mem _ _ _ _ _ m hm
    exact ⟨h3, h4, Or.inl h2⟩
  · split at hm
    · obtain ⟨-, h2, h3, h4⟩ := matchByKey_mem _ _ _ _ _ m hm
      exact ⟨h3, h4, Or.inl h2⟩
    · split at hm
      · obtain ⟨-, h2, h3, h4⟩ := matchByKey_mem _ _ _ _ _ m hm
        exact ⟨h3, h4, Or.inl h2⟩
      · split at hm
        · obtain ⟨-, h2, h3, h4⟩ := matchByKey_mem _ _ _ _ _ m hm
          exact ⟨h3, h4, Or.inl h2⟩
        · split at hm
          · obtain ⟨h1, h2, h3, h4⟩ := matchByTolerance_mem tol gl bank m hm
            refine ⟨h3, h4, Or.inr ⟨?_, h1, h2⟩⟩
            rw [h1]; rfl
          · simp at hm

/-- The residual pools of a single strategy application are drawn from
the input pools. -/
theorem applyStrategy_subset (tol : Rat) (name : String)
    (gl bank : List PrepRecord) :
    (∀ x ∈ (applyStrategy tol name gl bank).2.1, x ∈ gl) ∧
      (∀ x ∈ (applyStrategy tol name gl bank).2.2, x ∈ bank) := by
  unfold applyStrategy
  split
  · exact ⟨fun x hx => List.mem_of_mem_filter hx,
      fun x hx => List.mem_of_mem_filter hx⟩
  · split
    · exact ⟨fun x hx => List.mem_of_mem_filter hx,
        fun x hx => List.mem_of_mem_filter hx⟩
    · split
      · exact ⟨fun x hx => List.mem_of_mem_filter hx,
          fun x hx => List.mem_of_mem_filter hx⟩
      · split
        · exact ⟨fun x hx => List.mem_of_mem_filter hx,
            fun x hx => List.mem_of_mem_filter hx⟩
        · split
          · exact matchByTolerance_subset tol gl bank
          · exact ⟨fun x hx => hx, fun x hx => hx⟩

/-- The pools after a single strategy application are the input pools
with the matched indices removed, provided indices are duplicate-free
on each side. -/
theorem applyStrategy_pools (tol : Rat) (name : String) (gl bank : List PrepRecord)
    (hgl : (gl.map (fun r => r.idx)).Nodup)
    (hbank : (bank.map (fun r => r.idx)).Nodup) :
    (applyStrategy tol name gl bank).2.1
        = gl.filter (fun g =>
            !(((applyStrategy tol name gl bank).1.map
              (fun m => m.glRec.idx)).contains g.idx)) ∧
      (applyStrategy tol name gl bank).2.2
        = bank.filter (fun b =>
            !(((applyStrategy tol name gl bank).1.map
              (fun m => m.bankRec.idx)).contains b.idx)) := by
  unfold applyStrategy
  split
  · exact matchByKey_pools _ _ _ _ _
  · split
    · exact matchByKey_pools _ _ _ _ _
    · split
      · exact matchByKey_pools _ _ _ _ _
      · split
        · exact matchByKey_pools _ _ _ _ _
        · split
          · exact matchByTolerance_pools tol gl bank hgl hbank
          · constructor
            · exact (List.filter_eq_self.2 (by intro a ha; rfl)).symm
            · exact (List.filter_eq_self.2 (by intro a ha; rfl)).symm

/-- Every match of the whole chain pairs records from the input pools
and carries either confidence one or the canonical tolerance match
data. -/
theorem runStrategies_mem (tol : Rat) :
    ∀ (names : List String) (gl bank : List PrepRecord),
      ∀ m ∈ (runStrategies tol names gl bank).1,
        m.glRec ∈ gl ∧ m.bankRec ∈ bank ∧
          (m.confidence = 1 ∨
            (m.strategy = "amount_tolerance" ∧
              m = mkTolMatch tol m.glRec m.bankRec ∧
              tolPred tol m.glRec m.bankRec = true)) := by
  intro names
  induction names with
  | nil => intro gl bank m hm; simp [runStrategies] at hm
  | cons s rest ih =>
    intro gl bank m hm
    rw [runStrategies] at hm
    rcases List.mem_append.1 hm with h | h
    · exact applyStrategy_mem tol s gl bank m h
    · obtain ⟨h1, h2, h3⟩ := ih _ _ m h
      obtain ⟨hsg, hsb⟩ := applyStrategy_subset tol s gl bank
      exact ⟨hsg _ h1, hsb _ h2, h3⟩

/-- The residual pools of the whole chain are the inputs with every
matched index removed, provided input indices are duplicate-free on
each side. -/
theorem runStrategies_pools (tol : Rat) :
    ∀ (names : List String) (gl bank : List PrepRecord),
      (gl.map (fun r => r.idx)).Nodup → (bank.map (fun r => r.idx)).Nodup →
      (runStrategies tol names gl bank).2.1
          = gl.filter (fun g =>
              !(((runStrategies tol names gl bank).1.map
                (fun m => m.glRec.idx)).contains g.idx)) ∧
        (runStrategies tol names gl bank).2.2
          = bank.filter (fun b =>
              !(((runStrategies tol names gl bank).1.map
                (fun m => m.bankRec.idx)).contains b.idx)) := by
  intro names
  induction names with
  | nil =>
    intro gl bank hgl hbank
    constructor
    · exact (List.filter_eq_self.2 (by intro a ha; rfl)).symm
    · exact (List.filter_eq_self.2 (by intro a ha; rfl)).symm
  | cons s rest ih =>
    intro gl bank hgl hbank
    obtain ⟨hp1, hp2⟩ := applyStrategy_pools tol s gl bank hgl hbank
    have hgl1 : ((applyStrategy tol s gl bank).2.1.map (fun r => r.idx)).Nodup := by
      rw [hp1]
      exact List.Nodup.sublist (List.Sublist.map _ (List.filter_sublist gl)) hgl
    have hbank1 : ((applyStrategy tol s gl bank).2.2.map (fun r => r.idx)).Nodup := by
      rw [hp2]
      exact List.Nodup.sublist (List.Sublist.map _ (List.filter_sublist bank)) hbank
    obtain ⟨ih1, ih2⟩ := ih (applyStrategy tol s gl bank).2.1
      (applyStrategy tol s gl bank).2.2 hgl1 hbank1
    rw [runStrategies]
    constructor
    · show (runStrategies tol rest _ _).2.1 = _
      rw [ih1, hp1, List.filter_filter]
      apply List.filter_congr
      intro x hx
      rw [List.map_append, contains_append]
      simp only [Bool.not_or]
      rw [Bool.and_comm]
    · show (runStrategies tol rest _ _).2.2 = _
      rw [ih2, hp2, List.filter_filter]
      apply List.filter_congr
      intro x hx
      rw [List.map_append, contains_append]
      simp only [Bool.not_or]
      rw [Bool.and_comm]

/-! ## Fuzzy engine lemmas -/

/-- A zero score vector yields a zero composite confidence, whatever
the bonus flags. -/
theorem composite_of_zero (p : FuzzyParams) (am dm : Bool) :
    calculateCompositeConfidence p zeroScores am dm = 0 := by
  unfold calculateCompositeConfidence stringScore zeroScores
  cases am <;> cases dm <;> simp

/-- Composite confidence is between zero and one hundred whenever the
weights and scores are nonnegative. -/
theorem composite_bounds (p : FuzzyParams) (s : SimScores) (am dm : Bool)
    (hw : WeightsNonneg p)
    (hs : 0 ≤ s.charRatioVal ∧ 0 ≤ s.partRatioVal ∧ 0 ≤ s.tokenSortVal ∧
      0 ≤ s.tokenSetVal ∧ 0 ≤ s.jaroWinklerVal) :
    0 ≤ calculateCompositeConfidence p s am dm ∧
      calculateCompositeConfidence p s am dm ≤ 100 := by
  obtain ⟨hw1, hw2, hw3, hw4, hw5⟩ := hw
  obtain ⟨hs1, hs2, hs3, hs4, hs5⟩ := hs
  unfold calculateCompositeConfidence
  have hbase : 0 ≤ stringScore p s := by
    unfold stringScore
    have := mul_nonneg hs1 hw1
    have := mul_nonneg hs2 hw2
    have := mul_nonneg hs3 hw3
    have := mul_nonneg hs4 hw4
    have := mul_nonneg hs5 hw5
    linarith
  have hwa : 0 ≤ (if am = true then stringScore p s * (12 / 10) else stringScore p s) := by
    split
    · nlinarith
    · exact hbase
  have hwd : 0 ≤ (if dm = true then
      (if am = true then stringScore p s * (12 / 10) else stringScore p s) * (11 / 10)
      else (if am = true then stringScore p s * (12 / 10) else stringScore p s)) := by
    split
    · nlinarith
    · exact hwa
  constructor
  · exact le_min hwd (by norm_num)
  · exact min_le_right _ _

/-- The scores produced by calculate_string_similarity are nonnegative
under the library contract. -/
theorem stringSimilarity_nonneg (sim : SimOracle) (hs : OracleNonneg sim)
    (s1 s2 : String) :
    0 ≤ (calculateStringSimilarity sim s1 s2).charRatioVal ∧
      0 ≤ (calculateStringSimilarity sim s1 s2).partRatioVal ∧
      0 ≤ (calculateStringSimilarity sim s1 s2).tokenSortVal ∧
      0 ≤ (calculateStringSimilarity sim s1 s2).tokenSetVal ∧
      0 ≤ (calculateStringSimilarity sim s1 s2).jaroWinklerVal := by
  unfold calculateStringSimilarity
  split
  · exact ⟨le_refl 0, le_refl 0, le_refl 0, le_refl 0, le_refl 0⟩
  · exact hs _ _

/-- Every scored pair has a confidence between zero and one hundred
under the library contract and nonnegative weights. -/
theorem scorePair_bounds (p : FuzzyParams) (sim : SimOracle)
    (hw : WeightsNonneg p) (hs : OracleNonneg sim) (g b : PrepRecord) :
    0 ≤ (scorePair p sim g b).confidence ∧
      (scorePair p sim g b).confidence ≤ 100 :=
  composite_bounds p _ _ _ hw (stringSimilarity_nonneg sim hs _ _)

/-- A pair with an empty description on either side scores a composite
confidence of exactly zero. -/
theorem scorePair_empty_desc (p : FuzzyParams) (sim : SimOracle)
    (g b : PrepRecord) (h : g.description = "" ∨ b.description = "") :
    (scorePair p sim g b).confidence = 0 := by
  have hz : calculateStringSimilarity sim g.description b.description
      = zeroScores := by
    unfold calculateStringSimilarity
    rcases h with h | h <;> rw [h] <;> simp
  show calculateCompositeConfidence p
    (calculateStringSimilarity sim g.description b.description) _ _ = 0
  rw [hz]
  exact composite_of_zero p _ _

/-- Every auto-accepted entry of a per-record block is a scored pair
with the block record, drawn from the bank pool, scoring at or above
both thresholds. -/
theorem glBlock_fst_mem (p : FuzzyParams) (sim : SimOracle)
    (bank : List PrepRecord) (g : PrepRecord) :
    ∀ x ∈ (glBlock p sim bank g).1,
      (∃ b ∈ bank, x = scorePair p sim g b) ∧
        p.minConfidence ≤ x.confidence ∧ p.autoThreshold ≤ x.confidence := by
  intro x hx
  obtain ⟨htop, hauto⟩ := List.mem_filter.1 hx
  have hsorted := List.mem_of_mem_take htop
  have hcands := (List.mem_insertionSort confGE).1 hsorted
  obtain ⟨hmap, hmin⟩ := List.mem_filter.1 hcands
  obtain ⟨b, hb, hxb⟩ := List.mem_map.1 hmap
  exact ⟨⟨b, hb, hxb.symm⟩, of_decide_eq_true hmin, of_decide_eq_true hauto⟩

/-- Every manual-review entry of a per-record block is a scored pair
with the block record, drawn from the bank pool, scoring at or above
the floor but below the auto threshold. -/
theorem glBlock_snd_mem (p : FuzzyParams) (sim : SimOracle)
    (bank : List PrepRecord) (g : PrepRecord) :
    ∀ x ∈ (glBlock p sim bank g).2,
      (∃ b ∈ bank, x = scorePair p sim g b) ∧
        p.minConfidence ≤ x.confidence ∧ ¬(p.autoThreshold ≤ x.confidence) := by
  intro x hx
  obtain ⟨htop, hflag⟩ := List.mem_filter.1 hx
  have hsorted := List.mem_of_mem_take htop
  have hcands := (List.mem_insertionSort confGE).1 hsorted
  obtain ⟨hmap, hmin⟩ := List.mem_filter.1 hcands
  obtain ⟨b, hb, hxb⟩ := List.mem_map.1 hmap
  obtain ⟨hnot, -⟩ : (!decide (p.autoThreshold ≤ x.confidence)) = true ∧
      decide (p.minConfidence ≤ x.confidence) = true := by
    rw [← Bool.and_eq_true]; exact hflag
  refine ⟨⟨b, hb, hxb.symm⟩, of_decide_eq_true hmin, ?_⟩
  intro hcon
  rw [decide_eq_true hcon] at hnot
  simp at hnot

/-- A per-record block auto-accepts at most three pairs. -/
theorem glBlock_fst_len (p : FuzzyParams) (sim : SimOracle)
    (bank : List PrepRecord) (g : PrepRecord) :
    (glBlock p sim bank g).1.length ≤ 3 := by
  unfold glBlock
  refine le_trans (List.length_filter_le _ _) ?_
  rw [List.length_take]
  exact min_le_left _ _

/-- The internal index of every block entry is the block record. -/
theorem glBlock_fst_idx (p : FuzzyParams) (sim : SimOracle)
    (bank : List PrepRecord) (g : PrepRecord) :
    ∀ x ∈ (glBlock p sim bank g).1, x.glIdx = g.idx := by
  intro x hx
  obtain ⟨⟨b, -, hxb⟩, -, -⟩ := glBlock_fst_mem p sim bank g x hx
  rw [hxb]
  rfl

/-- Every auto-accepted fuzzy match is a scored pair of records from
the two pools scoring at or above the auto threshold. -/
theorem fuzzyMatches_mem (p : FuzzyParams) (sim : SimOracle)
    (gl bank : List PrepRecord) :
    ∀ m ∈ (findFuzzyMatches p sim gl bank).1,
      ∃ g ∈ gl, ∃ b ∈ bank, m = scorePair p sim g b ∧
        p.minConfidence ≤ m.confidence ∧ p.autoThreshold ≤ m.confidence := by
  intro m hm
  obtain ⟨g, hg, hmg⟩ := List.mem_flatMap.1 hm
  obtain ⟨⟨b, hb, hmb⟩, hmin, hauto⟩ := glBlock_fst_mem p sim bank g m hmg
  exact ⟨g, hg, b, hb, hmb, hmin, hauto⟩

/-- Every potential match is a scored pair of records from the two
pools scoring in the manual-review band. -/
theorem potentialMatches_mem (p : FuzzyParams) (sim : SimOracle)
    (gl bank : List PrepRecord) :
    ∀ m ∈ (findFuzzyMatches p sim gl bank).2,
      ∃ g ∈ gl, ∃ b ∈ bank, m = scorePair p sim g b ∧
        p.minConfidence ≤ m.confidence ∧ ¬(p.autoThreshold ≤ m.confidence) := by
  intro m hm
  obtain ⟨g, hg, hmg⟩ := List.mem_flatMap.1 hm
  obtain ⟨⟨b, hb, hmb⟩, hmin, hauto⟩ := glBlock_snd_mem p sim bank g m hmg
  exact ⟨g, hg, b, hb, hmb, hmin, hauto⟩

/-- Per internal index, at most three fuzzy matches are auto-accepted,
provided the internal indices are duplicate-free. -/
theorem fuzzyMatches_count (p : FuzzyParams) (sim : SimOracle) :
    ∀ (gl bank : List PrepRecord), (gl.map (fun r => r.idx)).Nodup →
      ∀ i : Nat,
        ((findFuzzyMatches p sim gl bank).1.filter
          (fun m => m.glIdx == i)).length ≤ 3 := by
  intro gl
  induction gl with
  | nil => intro bank h i; simp [findFuzzyMatches]
  | cons g gs ih =>
    intro bank h i
    have h2 : (gs.map (fun r => r.idx)).Nodup := (List.nodup_cons.1 h).2
    have hgidx : g.idx ∉ gs.map (fun r => r.idx) := (List.nodup_cons.1 h).1
    show ((((g :: gs).flatMap (fun g => (glBlock p sim bank g).1)).filter
      (fun m => m.glIdx == i)).length) ≤ 3
    rw [List.flatMap_cons, List.filter_append, List.length_append]
    have htail_mem : ∀ m ∈ gs.flatMap (fun g => (glBlock p sim bank g).1),
        m.glIdx ∈ gs.map (fun r => r.idx) := by
      intro m hm
      obtain ⟨g2, hg2, hmg2⟩ := List.mem_flatMap.1 hm
      rw [glBlock_fst_idx p sim bank g2 m hmg2]
      exact List.mem_map_of_mem (fun r => r.idx) hg2
    by_cases hcase : g.idx = i
    · have htail : ((gs.flatMap (fun g => (glBlock p sim bank g).1)).filter
          (fun m => m.glIdx == i)) = [] := by
        rw [List.filter_eq_nil_iff]
        intro m hm hmi
        have : m.glIdx = i := by simpa using hmi
        exact hgidx (hcase ▸ this ▸ htail_mem m hm)
      rw [htail]
      have hhead : (((glBlock p sim bank g).1.filter
          (fun m => m.glIdx == i)).length) ≤ 3 :=
        le_trans (List.length_filter_le _ _) (glBlock_fst_len p sim bank g)
      simpa using hhead
    · have hhead : ((glBlock p sim bank g).1.filter
          (fun m => m.glIdx == i)) = [] := by
        rw [List.filter_eq_nil_iff]
        intro m hm hmi
        have h5 : m.glIdx = i := by simpa using hmi
        exact hcase ((glBlock_fst_idx p sim bank g m hm).symm.trans h5)
      rw [hhead]
      simpa using ih bank h2 i

/-! ## Tolerance confidence bounds -/

/-- The tolerance pairing condition forces numeric amounts within
tolerance and equal valid dates, and the emitted confidence is the
canonical formula, bounded between nine tenths and one. -/
theorem mkTolMatch_spec (tol : Rat) (g b : PrepRecord)
    (h : tolPred tol g b = true) (htol : 0 < tol) :
    dateStrEqB g.date b.date = true ∧
      ∃ x y, g.amount = some x ∧ b.amount = some y ∧ |x - y| ≤ tol ∧
        (mkTolMatch tol g b).confidence = 1 - |x - y| / tol * (1 / 10) ∧
        9 / 10 ≤ (mkTolMatch tol g b).confidence ∧
        (mkTolMatch tol g b).confidence ≤ 1 := by
  obtain ⟨hamt, hdate⟩ : amountDiffOk g.amount b.amount tol = true ∧
      dateStrEqB g.date b.date = true := by
    rw [← Bool.and_eq_true]; exact h
  refine ⟨hdate, ?_⟩
  unfold amountDiffOk at hamt
  cases hga : g.amount with
  | none => rw [hga] at hamt; cases hamt
  | some x =>
    cases hgb : b.amount with
    | none => rw [hga, hgb] at hamt; cases hamt
    | some y =>
      rw [hga, hgb] at hamt
      have hle : |x - y| ≤ tol := of_decide_eq_true hamt
      have hconf : (mkTolMatch tol g b).confidence
          = 1 - |x - y| / tol * (1 / 10) := by
        show 1 - optAbsDiff g.amount b.amount / tol * (1 / 10) = _
        rw [hga, hgb]
        rfl
      have hd0 : (0 : Rat) ≤ |x - y| := abs_nonneg _
      have hdiv1 : |x - y| / tol ≤ 1 := (div_le_one htol).2 hle
      have hdiv0 : 0 ≤ |x - y| / tol := div_nonneg hd0 htol.le
      refine ⟨x, y, rfl, rfl, hle, hconf, ?_, ?_⟩
      · rw [hconf]; nlinarith
      · rw [hconf]; nlinarith

/-! ## Validation lemmas -/

/-- Recovering an Except value from its Option projection. -/
theorem except_of_toOption_some {ε α : Type} (e : Except ε α) (x : α)
    (h : e.toOption = some x) : e = .ok x := by
  cases e with
  | error err => simp [Except.toOption] at h
  | ok v => simp [Except.toOption] at h; rw [h]

/-- A successful validation certifies nonempty inputs and the presence
of the required columns on both sides. -/
theorem validate_ok_conditions (gl bank : InputTable)
    (h : validateReconciliationData gl bank = .ok ()) :
    gl.rows ≠ [] ∧ gl.hasDate = true ∧ gl.hasAmount = true ∧
      bank.rows ≠ [] ∧ bank.hasDate = true ∧ bank.hasAmount = true := by
  unfold validateReconciliationData at h
  split_ifs at h with h1 h2 h3 h4
  simp only [beq_iff_eq] at h1 h3
  simp only [Bool.not_eq_true', Bool.not_eq_false, Bool.and_eq_true] at h2 h4
  refine ⟨?_, h2.1.1, h2.1.2, ?_, h4.1.1, h4.1.2⟩
  · intro hc; exact h1 (by rw [hc]; rfl)
  · intro hc; exact h3 (by rw [hc]; rfl)

/-! ## Claim theorems

One theorem (plus, where required, one witness or counterexample) per
claim of the frozen claim list.
-/

/-- C1: the engine emits two matches that both reference the single
external record when two internal records share the amount-date key
with it, and its own result validation counts this as a duplicate and
reports loss of data integrity; the claimed at-most-one-match-per-record
invariant fails on this input. -/
theorem C1_duplicate_match_eval :
    (reconcileExactMatches (1 / 100) c1GlTable c1BankTable).toOption.map
        (fun s => (s.matchList.map (fun m => (m.glRec.idx, m.bankRec.idx, m.strategy)),
          duplicateMatches s.matchList, dataIntegrity s.matchList,
          s.unmatchedGl.length, s.unmatchedBank.length))
      = some ([(0, 0, "amount_date_exact"), (1, 0, "amount_date_exact")],
          1, false, 0, 0) := by
  with_unfolding_all decide

/-- C7: two records whose dates failed to parse are matched to each
other by the amount_date_exact strategy, because the NaT date renders
as the literal text nan inside the join key on both sides; the claimed
never-matches sentinel behaviour fails on this input. -/
theorem C7_invalid_record_match_eval :
    (reconcileExactMatches (1 / 100) c7GlTable c7BankTable).toOption.map
        (fun s => (s.matchList.map (fun m => (m.strategy, m.glRec.idx, m.bankRec.idx)),
          s.unmatchedGl.length, s.unmatchedBank.length))
      = some ([("amount_date_exact", 0, 0)], 0, 0) ∧
    c7RecGl.date = none ∧ c7RecBank.date = none := by
  refine ⟨?_, rfl, rfl⟩
  with_unfolding_all decide

/-- C4: when either input table is empty or lacks the date or amount
column, the whole reconciliation returns a single validation error and
no session; no matching strategy output is produced. -/
theorem C4_validation_abort (tol : Rat) (gl bank : InputTable)
    (h : gl.rows = [] ∨ bank.rows = [] ∨ gl.hasDate = false ∨
      gl.hasAmount = false ∨ bank.hasDate = false ∨ bank.hasAmount = false) :
    ∃ e, reconcileExactMatches tol gl bank = .error e := by
  unfold reconcileExactMatches
  cases hv : validateReconciliationData gl bank with
  | error e => exact ⟨"Reconciliation failed: " ++ e, rfl⟩
  | ok u =>
    cases u
    obtain ⟨h1, h2, h3, h4, h5, h6⟩ := validate_ok_conditions gl bank hv
    rcases h with h | h | h | h | h | h
    · exact absurd h h1
    · exact absurd h h4
    · exact absurd (h ▸ h2) (by simp)
    · exact absurd (h ▸ h3) (by simp)
    · exact absurd (h ▸ h5) (by simp)
    · exact absurd (h ▸ h6) (by simp)

/-- C4 witness: the empty internal table aborts with a validation
error. -/
theorem C4_validation_abort_witness :
    ∃ e, reconcileExactMatches (1 / 100) c4EmptyGlTable c4BankTable
      = .error e :=
  C4_validation_abort (1 / 100) c4EmptyGlTable c4BankTable (Or.inl rfl)

/-- C8: classification scans the category patterns in the fixed
dictionary order with first match winning; a description containing
the word pending is always classified as a timing difference, whose
category is auto-resolvable; when no pattern matches, a small absolute
amount yields amount differences, a large round amount yields
system-specific, and anything else yields unknown. -/
theorem C8_classification :
    (∀ d a c, matchesCategory (strLower d) c = true →
        (∀ c2, catRank c2 < catRank c → matchesCategory (strLower d) c2 = false) →
        classifyRecord d a = c) ∧
    (∀ d a, containsStr (strLower d) "pending" = true →
        classifyRecord d a = ExCategory.timingDifferences ∧
        autoResolvable ExCategory.timingDifferences = true) ∧
    (∀ d a, (∀ c ∈ categoryOrder, matchesCategory (strLower d) c = false) →
        ((|a| < 10 → classifyRecord d a = ExCategory.amountDifferences) ∧
          (¬(|a| < 10) → isMultipleOf100 a = true → |a| > 1000 →
            classifyRecord d a = ExCategory.systemSpecific) ∧
          (¬(|a| < 10) → ¬(isMultipleOf100 a = true ∧ |a| > 1000) →
            classifyRecord d a = ExCategory.unknown))) := by
  have horder : ∀ d a c, matchesCategory (strLower d) c = true →
      (∀ c2, catRank c2 < catRank c → matchesCategory (strLower d) c2 = false) →
      classifyRecord d a = c := by
    intro d a c hc hearlier
    cases c with
    | timingDifferences =>
      simp [classifyRecord, categoryOrder, List.find?, hc]
    | amountDifferences =>
      have e0 := hearlier ExCategory.timingDifferences (by decide)
      simp [classifyRecord, categoryOrder, List.find?, hc, e0]
    | missingTransactions =>
      have e0 := hearlier ExCategory.timingDifferences (by decide)
      have e1 := hearlier ExCategory.amountDifferences (by decide)
      simp [classifyRecord, categoryOrder, List.find?, hc, e0, e1]
    | duplicateTransactions =>
      have e0 := hearlier ExCategory.timingDifferences (by decide)
      have e1 := hearlier ExCategory.amountDifferences (by decide)
      have e2 := hearlier ExCategory.missingTransactions (by decide)
      simp [classifyRecord, categoryOrder, List.find?, hc, e0, e1, e2]
    | systemSpecific =>
      have e0 := hearlier ExCategory.timingDifferences (by decide)
      have e1 := hearlier ExCategory.amountDifferences (by decide)
      have e2 := hearlier ExCategory.missingTransactions (by decide)
      have e3 := hearlier ExCategory.duplicateTransactions (by decide)
      simp [classifyRecord, categoryOrder, List.find?, hc, e0, e1, e2, e3]
    | dataQualityIssues =>
      have e0 := hearlier ExCategory.timingDifferences (by decide)
      have e1 := hearlier ExCategory.amountDifferences (by decide)
      have e2 := hearlier ExCategory.missingTransactions (by decide)
      have e3 := hearlier ExCategory.duplicateTransactions (by decide)
      have e4 := hearlier ExCategory.systemSpecific (by decide)
      simp [classifyRecord, categoryOrder, List.find?, hc, e0, e1, e2, e3, e4]
    | unknown =>
      exact absurd hc (by simp [matchesCategory, categoryPatterns])
  refine ⟨horder, ?_, ?_⟩
  · intro d a h
    refine ⟨horder d a ExCategory.timingDifferences ?_ ?_, rfl⟩
    · simp [matchesCategory, categoryPatterns]
      exact Or.inl h
    · intro c2 hlt
      exact absurd hlt (Nat.not_lt_zero _)
  · intro d a hnone
    have hfind : categoryOrder.find?
        (fun c => matchesCategory (strLower d) c) = none :=
      List.find?_eq_none.2 (fun x hx => by simp [hnone x hx])
    refine ⟨?_, ?_, ?_⟩
    · intro h10
      simp only [classifyRecord, hfind]
      rw [if_pos h10]
    · intro hn hmul hgt
      simp only [classifyRecord, hfind]
      rw [if_neg hn]
      have hcond : (isMultipleOf100 a && decide (|a| > 1000)) = true := by
        rw [hmul, decide_eq_true hgt]
        rfl
      rw [if_pos hcond]
    · intro hn hcon
      simp only [classifyRecord, hfind]
      rw [if_neg hn]
      have hcond : ¬((isMultipleOf100 a && decide (|a| > 1000)) = true) := by
        intro hcc
        obtain ⟨hc1, hc2⟩ : isMultipleOf100 a = true ∧
            decide (|a| > 1000) = true := by
          rw [← Bool.and_eq_true]; exact hcc
        exact hcon ⟨hc1, of_decide_eq_true hc2⟩
      rw [if_neg hcond]

/-- C8 witness: a pending description is classified as an
auto-resolvable timing difference. -/
theorem C8_classification_witness :
    classifyRecord "URGENT Pending transfer" 500 = ExCategory.timingDifferences ∧
      autoResolvable ExCategory.timingDifferences = true :=
  C8_classification.2.1 "URGENT Pending transfer" 500 (by decide)

/-- C9: after fuzzy matching, a record is removed from its unmatched
pool exactly when an auto-accepted fuzzy match references its index;
potential matches are not consulted, so a record referenced only by
potential matches stays in its pool. -/
theorem C9_potential_not_removed (p : FuzzyParams) (sim : SimOracle)
    (gl bank : List PrepRecord) :
    (∀ r, r ∈ (getUnmatchedRecords gl bank
          (findFuzzyMatches p sim gl bank).1).1
        ↔ r ∈ gl ∧ ∀ m ∈ (findFuzzyMatches p sim gl bank).1, m.glIdx ≠ r.idx) ∧
    (∀ r, r ∈ (getUnmatchedRecords gl bank
          (findFuzzyMatches p sim gl bank).1).2
        ↔ r ∈ bank ∧
          ∀ m ∈ (findFuzzyMatches p sim gl bank).1, m.bankIdx ≠ r.idx) ∧
    (∀ r ∈ gl,
        (∃ m ∈ (findFuzzyMatches p sim gl bank).2, m.glIdx = r.idx) →
        (∀ m ∈ (findFuzzyMatches p sim gl bank).1, m.glIdx ≠ r.idx) →
        r ∈ (getUnmatchedRecords gl bank (findFuzzyMatches p sim gl bank).1).1) := by
  have key : ∀ (F : List FuzzyMatchInfo) (f : FuzzyMatchInfo → Nat) (i : Nat),
      ((!((F.map f).contains i)) = true) ↔ ∀ m ∈ F, f m ≠ i := by
    intro F f i
    rw [Bool.not_eq_true']
    constructor
    · intro h m hm hc
      have : (F.map f).contains i = true :=
        (contains_iff_mem _ _).2 (hc ▸ List.mem_map_of_mem f hm)
      rw [h] at this
      cases this
    · intro h
      rw [Bool.eq_false_iff]
      intro hc
      obtain ⟨m, hm, hmi⟩ := List.mem_map.1 ((contains_iff_mem _ _).1 hc)
      exact h m hm hmi
  have hgl : ∀ r, r ∈ (getUnmatchedRecords gl bank
        (findFuzzyMatches p sim gl bank).1).1
      ↔ r ∈ gl ∧ ∀ m ∈ (findFuzzyMatches p sim gl bank).1, m.glIdx ≠ r.idx := by
    intro r
    unfold getUnmatchedRecords
    rw [List.mem_filter]
    exact and_congr_right (fun _ => key _ _ _)
  refine ⟨hgl, ?_, ?_⟩
  · intro r
    unfold getUnmatchedRecords
    rw [List.mem_filter]
    exact and_congr_right (fun _ => key _ _ _)
  · intro r hr _ hnone
    exact (hgl r).2 ⟨hr, hnone⟩

/-- C9 witness: a record whose only candidate lands in the
manual-review band remains in the unmatched pool. -/
theorem C9_potential_not_removed_witness :
    c9RecGl ∈ (getUnmatchedRecords [c9RecGl] [c9RecBank]
      (findFuzzyMatches defaultFuzzyParams (simConstOracle 75)
        [c9RecGl] [c9RecBank]).1).1 :=
  (C9_potential_not_removed defaultFuzzyParams (simConstOracle 75)
      [c9RecGl] [c9RecBank]).2.2 c9RecGl (by decide)
    ⟨c9PotMatch, by with_unfolding_all decide, by with_unfolding_all decide⟩
    (by with_unfolding_all decide)

/-- C10: an empty operand short-circuits the similarity scores to zero,
a zero score vector yields composite confidence zero, and consequently
no auto-accepted or potential match ever pairs a record with an empty
description when the minimum-confidence floor is positive. -/
theorem C10_empty_description (p : FuzzyParams) (sim : SimOracle)
    (gl bank : List PrepRecord) (hmin : 0 < p.minConfidence) :
    (∀ s, calculateStringSimilarity sim "" s = zeroScores ∧
        calculateStringSimilarity sim s "" = zeroScores) ∧
    (∀ am dm, calculateCompositeConfidence p zeroScores am dm = 0) ∧
    (∀ m ∈ (findFuzzyMatches p sim gl bank).1
        ++ (findFuzzyMatches p sim gl bank).2,
      m.glRec.description ≠ "" ∧ m.bankRec.description ≠ "") := by
  refine ⟨?_, fun am dm => composite_of_zero p am dm, ?_⟩
  · intro s
    constructor
    · unfold calculateStringSimilarity
      simp
    · unfold calculateStringSimilarity
      simp
  · intro m hm
    have hfacts : ∃ g ∈ gl, ∃ b ∈ bank, m = scorePair p sim g b ∧
        p.minConfidence ≤ m.confidence := by
      rcases List.mem_append.1 hm with h | h
      · obtain ⟨g, hg, b, hb, hmb, hmn, -⟩ :=
          fuzzyMatches_mem p sim gl bank m h
        exact ⟨g, hg, b, hb, hmb, hmn⟩
      · obtain ⟨g, hg, b, hb, hmb, hmn, -⟩ :=
          potentialMatches_mem p sim gl bank m h
        exact ⟨g, hg, b, hb, hmb, hmn⟩
    obtain ⟨g, hg, b, hb, hmb, hmn⟩ := hfacts
    constructor
    · intro hdesc
      have : (scorePair p sim g b).confidence = 0 :=
        scorePair_empty_desc p sim g b (Or.inl (by rw [hmb] at hdesc; exact hdesc))
      rw [hmb, this] at hmn
      exact absurd hmn (not_le.2 hmin)
    · intro hdesc
      have : (scorePair p sim g b).confidence = 0 :=
        scorePair_empty_desc p sim g b (Or.inr (by rw [hmb] at hdesc; exact hdesc))
      rw [hmb, this] at hmn
      exact absurd hmn (not_le.2 hmin)

/-- C10 witness: a concrete auto-accepted match, whose records
consequently carry nonempty descriptions. -/
theorem C10_empty_description_witness :
    c10Match.glRec.description ≠ "" ∧ c10Match.bankRec.description ≠ "" :=
  (C10_empty_description defaultFuzzyParams simEqOracle
      [c10RecGl] [c10RecBank] (by norm_num [defaultFuzzyParams])).2.2
    c10Match (by with_unfolding_all decide)

/-- C2 counterexample: a single internal record is auto-matched to two
distinct external records in one pass, so the claimed
at-most-one-proposed-match-per-internal-record policy (and with it the
mutual-best-match restriction) does not hold. -/
theorem C2_counterexample :
    ((findFuzzyMatches defaultFuzzyParams simEqOracle [c2RecGl]
        [c2RecBank0, c2RecBank1]).1.map (fun m => m.glIdx)) = [0, 0] ∧
    ¬ ((findFuzzyMatches defaultFuzzyParams simEqOracle [c2RecGl]
        [c2RecBank0, c2RecBank1]).1.map (fun m => m.glIdx)).Nodup := by
  constructor
  · with_unfolding_all decide
  · with_unfolding_all decide

/-- C2 amended: for each internal record the engine keeps its top-three
scoring candidates and auto-accepts every one of them at or above the
auto threshold, with no mutual-best-match check; hence at most three
matches per internal record (when internal indices are duplicate-free),
each match scoring at or above the auto threshold against some record
of the external pool. -/
theorem C2_selection_amended (p : FuzzyParams) (sim : SimOracle)
    (gl bank : List PrepRecord) (h : (gl.map (fun r => r.idx)).Nodup) :
    (∀ m ∈ (findFuzzyMatches p sim gl bank).1,
        p.autoThreshold ≤ m.confidence ∧
        ∃ g ∈ gl, ∃ b ∈ bank, m = scorePair p sim g b) ∧
    (∀ i, ((findFuzzyMatches p sim gl bank).1.filter
        (fun m => m.glIdx == i)).length ≤ 3) := by
  constructor
  · intro m hm
    obtain ⟨g, hg, b, hb, hmb, -, hauto⟩ := fuzzyMatches_mem p sim gl bank m hm
    exact ⟨hauto, g, hg, b, hb, hmb⟩
  · exact fuzzyMatches_count p sim gl bank h

/-- C2 amended witness: on the two-candidate input the per-record match
count stays within three. -/
theorem C2_selection_amended_witness :
    ((findFuzzyMatches defaultFuzzyParams simEqOracle [c2RecGl]
        [c2RecBank0, c2RecBank1]).1.filter
      (fun m => m.glIdx == 0)).length ≤ 3 :=
  (C2_selection_amended defaultFuzzyParams simEqOracle [c2RecGl]
      [c2RecBank0, c2RecBank1] (by decide)).2 0

/-- C5 counterexample: a tolerance match of two equal amounts carries
confidence one, not the one hundred demanded by the claimed percentage
formula, whose value at zero difference is one hundred. -/
theorem C5_confidence_scale_counterexample :
    ((matchByTolerance (1 / 100) [c5RecGl] [c5RecBank]).1.map
        (fun m => m.confidence)) = [1] ∧
    c5RecGl.amount = c5RecBank.amount ∧
    (1 : Rat) ≠ 100 * (1 - (0 / (1 / 100)) * (1 / 10)) := by
  refine ⟨?_, rfl, by norm_num⟩
  with_unfolding_all decide

/-- C5 amended: every tolerance match pairs records with equal valid
date keys and numeric amounts within the tolerance, and its confidence
on the engine scale is one minus a tenth of the consumed tolerance
fraction (the claimed percentage divided by one hundred), never below
nine tenths. -/
theorem C5_tolerance_amended (tol : Rat) (htol : 0 < tol)
    (gl bank : List PrepRecord) :
    ∀ m ∈ (matchByTolerance tol gl bank).1,
      m.strategy = "amount_tolerance" ∧
      dateStrEqB m.glRec.date m.bankRec.date = true ∧
      ∃ x y, m.glRec.amount = some x ∧ m.bankRec.amount = some y ∧
        |x - y| ≤ tol ∧
        m.confidence = 1 - |x - y| / tol * (1 / 10) ∧
        9 / 10 ≤ m.confidence ∧ m.confidence ≤ 1 := by
  intro m hm
  obtain ⟨h1, h2, -, -⟩ := matchByTolerance_mem tol gl bank m hm
  obtain ⟨hdate, x, y, hx, hy, hle, hconf, hlo, hhi⟩ :=
    mkTolMatch_spec tol m.glRec m.bankRec h2 htol
  have hc : m.confidence = (mkTolMatch tol m.glRec m.bankRec).confidence :=
    congrArg MatchRec.confidence h1
  have hstrat : m.strategy = "amount_tolerance" := by
    rw [congrArg MatchRec.strategy h1]
    rfl
  rw [hc]
  exact ⟨hstrat, hdate, x, y, hx, hy, hle, hconf, hlo, hhi⟩

/-- C5 amended witness: a pair differing by exactly the tolerance is
matched with confidence nine tenths. -/
theorem C5_tolerance_amended_witness :
    c5wMatch.strategy = "amount_tolerance" ∧
    dateStrEqB c5wMatch.glRec.date c5wMatch.bankRec.date = true ∧
    ∃ x y, c5wMatch.glRec.amount = some x ∧ c5wMatch.bankRec.amount = some y ∧
      |x - y| ≤ 1 / 100 ∧
      c5wMatch.confidence = 1 - |x - y| / (1 / 100) * (1 / 10) ∧
      9 / 10 ≤ c5wMatch.confidence ∧ c5wMatch.confidence ≤ 1 :=
  C5_tolerance_amended (1 / 100) (by norm_num) [c5wRecGl] [c5wRecBank]
    c5wMatch (by with_unfolding_all decide)

/-- C6 counterexample: an amount_date_exact match carries confidence
one on the engine scale, not the literal one hundred of the claim. -/
theorem C6_confidence_scale_counterexample :
    (runStrategies (1 / 100) defaultStrategies [c6RecGl] [c6RecBank]).1.map
        (fun m => (m.strategy, m.confidence)) = [("amount_date_exact", 1)] ∧
    (1 : Rat) ≠ 100 := by
  refine ⟨?_, by norm_num⟩
  with_unfolding_all decide

/-- C6 amended: every match of the exact chain has confidence in the
unit interval (one for every non-tolerance strategy, at least nine
tenths for the tolerance strategy), hence within zero and one hundred;
and every fuzzy match or potential match has confidence within zero
and one hundred under the nonnegativity contracts of the weights and
the similarity libraries. -/
theorem C6_confidence_bounds_amended :
    (∀ (tol : Rat), 0 < tol → ∀ (gl bank : List PrepRecord),
      ∀ m ∈ (runStrategies tol defaultStrategies gl bank).1,
        (0 ≤ m.confidence ∧ m.confidence ≤ 100) ∧
        (m.strategy ≠ "amount_tolerance" → m.confidence = 1)) ∧
    (∀ (p : FuzzyParams) (sim : SimOracle), WeightsNonneg p → OracleNonneg sim →
      ∀ (gl bank : List PrepRecord),
        ∀ m ∈ (findFuzzyMatches p sim gl bank).1
            ++ (findFuzzyMatches p sim gl bank).2,
          0 ≤ m.confidence ∧ m.confidence ≤ 100) := by
  constructor
  · intro tol htol gl bank m hm
    obtain ⟨-, -, hdisj⟩ := runStrategies_mem tol defaultStrategies gl bank m hm
    rcases hdisj with hconf | ⟨hstrat, heq, hpred⟩
    · exact ⟨⟨by rw [hconf]; norm_num, by rw [hconf]; norm_num⟩, fun _ => hconf⟩
    · obtain ⟨-, x, y, -, -, -, -, hlo, hhi⟩ :=
        mkTolMatch_spec tol m.glRec m.bankRec hpred htol
      have hc : m.confidence = (mkTolMatch tol m.glRec m.bankRec).confidence :=
        congrArg MatchRec.confidence heq
      refine ⟨⟨by rw [hc]; linarith, by rw [hc]; linarith⟩, fun hne => ?_⟩
      exact absurd hstrat hne
  · intro p sim hw hs gl bank m hm
    have hform : ∃ g b, m = scorePair p sim g b := by
      rcases List.mem_append.1 hm with h | h
      · obtain ⟨g, -, b, -, hmb, -, -⟩ := fuzzyMatches_mem p sim gl bank m h
        exact ⟨g, b, hmb⟩
      · obtain ⟨g, -, b, -, hmb, -, -⟩ := potentialMatches_mem p sim gl bank m h
        exact ⟨g, b, hmb⟩
    obtain ⟨g, b, hmb⟩ := hform
    have hc : m.confidence = (scorePair p sim g b).confidence :=
      congrArg FuzzyMatchInfo.confidence hmb
    rw [hc]
    exact scorePair_bounds p sim hw hs g b

/-- C6 amended witness: a concrete exact match with confidence one and
a concrete fuzzy match within bounds. -/
theorem C6_confidence_bounds_amended_witness :
    ((0 ≤ c6wMatch.confidence ∧ c6wMatch.confidence ≤ 100) ∧
      (c6wMatch.strategy ≠ "amount_tolerance" → c6wMatch.confidence = 1)) ∧
    (0 ≤ c6wFuzzy.confidence ∧ c6wFuzzy.confidence ≤ 100) := by
  constructor
  · exact C6_confidence_bounds_amended.1 (1 / 100) (by norm_num)
      [c6wRecGl] [c6wRecBank] c6wMatch (by with_unfolding_all decide)
  · exact C6_confidence_bounds_amended.2 defaultFuzzyParams simEqOracle
      (by refine ⟨?_, ?_, ?_, ?_, ?_⟩ <;> norm_num [defaultFuzzyParams])
      (by
        intro s1 s2
        unfold simEqOracle simAllQ
        split <;> refine ⟨?_, ?_, ?_, ?_, ?_⟩ <;> norm_num)
      [c6wFglRec] [c6wFbankRec] c6wFuzzy
      (by with_unfolding_all decide)

/-! ## Conservation counting -/

/-- Splitting a pool along a covered duplicate-free index list. -/
theorem pool_count (l : List PrepRecord) (G : List Nat)
    (hl : (l.map (fun r => r.idx)).Nodup) (hG : G.Nodup)
    (hsub : ∀ g ∈ G, g ∈ l.map (fun r => r.idx)) :
    (l.filter (fun r => !(G.contains r.idx))).length + G.length = l.length := by
  have hsplit : (l.filter (fun r => G.contains r.idx)).length
      + (l.filter (fun r => !(G.contains r.idx))).length = l.length :=
    length_filter_not_add (fun r => G.contains r.idx) l
  have hcount := length_filter_contains_rec l G hl hG hsub
  omega

/-- The chain removes exactly the matched records from each pool: the
residual pool length plus the match count recovers each input length,
when no index is referenced twice; the residual index lists stay
duplicate-free. -/
theorem runStrategies_counts (tol : Rat) (names : List String)
    (gl bank : List PrepRecord)
    (hgl : (gl.map (fun r => r.idx)).Nodup)
    (hbank : (bank.map (fun r => r.idx)).Nodup)
    (hA : ((runStrategies tol names gl bank).1.map
      (fun m => m.glRec.idx)).Nodup)
    (hB : ((runStrategies tol names gl bank).1.map
      (fun m => m.bankRec.idx)).Nodup) :
    ((runStrategies tol names gl bank).2.1.length
        + (runStrategies tol names gl bank).1.length = gl.length ∧
      (runStrategies tol names gl bank).2.2.length
        + (runStrategies tol names gl bank).1.length = bank.length) ∧
    (((runStrategies tol names gl bank).2.1.map (fun r => r.idx)).Nodup ∧
      ((runStrategies tol names gl bank).2.2.map (fun r => r.idx)).Nodup) := by
  obtain ⟨hpg, hpb⟩ := runStrategies_pools tol names gl bank hgl hbank
  have hsubG : ∀ i ∈ (runStrategies tol names gl bank).1.map
      (fun m => m.glRec.idx), i ∈ gl.map (fun r => r.idx) := by
    intro i hi
    obtain ⟨m, hm, hmi⟩ := List.mem_map.1 hi
    exact hmi ▸ List.mem_map_of_mem (fun r => r.idx)
      (runStrategies_mem tol names gl bank m hm).1
  have hsubB : ∀ i ∈ (runStrategies tol names gl bank).1.map
      (fun m => m.bankRec.idx), i ∈ bank.map (fun r => r.idx) := by
    intro i hi
    obtain ⟨m, hm, hmi⟩ := List.mem_map.1 hi
    exact hmi ▸ List.mem_map_of_mem (fun r => r.idx)
      (runStrategies_mem tol names gl bank m hm).2.1
  have h1 := pool_count gl _ hgl hA hsubG
  have h2 := pool_count bank _ hbank hB hsubB
  rw [← hpg] at h1
  rw [← hpb] at h2
  rw [List.length_map] at h1 h2
  refine ⟨⟨h1, h2⟩, ?_, ?_⟩
  · rw [hpg]
    exact List.Nodup.sublist (List.Sublist.map _ (List.filter_sublist gl)) hgl
  · rw [hpb]
    exact List.Nodup.sublist (List.Sublist.map _ (List.filter_sublist bank)) hbank

/-- The fuzzy stage removes exactly the auto-matched records from each
pool, when no index is auto-matched twice. -/
theorem getUnmatched_counts (p : FuzzyParams) (sim : SimOracle)
    (gl bank : List PrepRecord)
    (hgl : (gl.map (fun r => r.idx)).Nodup)
    (hbank : (bank.map (fun r => r.idx)).Nodup)
    (hFA : ((findFuzzyMatches p sim gl bank).1.map (fun m => m.glIdx)).Nodup)
    (hFB : ((findFuzzyMatches p sim gl bank).1.map (fun m => m.bankIdx)).Nodup) :
    (getUnmatchedRecords gl bank (findFuzzyMatches p sim gl bank).1).1.length
        + (findFuzzyMatches p sim gl bank).1.length = gl.length ∧
      (getUnmatchedRecords gl bank (findFuzzyMatches p sim gl bank).1).2.length
        + (findFuzzyMatches p sim gl bank).1.length = bank.length := by
  have hsubG : ∀ i ∈ (findFuzzyMatches p sim gl bank).1.map (fun m => m.glIdx),
      i ∈ gl.map (fun r => r.idx) := by
    intro i hi
    obtain ⟨m, hm, hmi⟩ := List.mem_map.1 hi
    obtain ⟨g, hg, b, hb, hmb, -, -⟩ := fuzzyMatches_mem p sim gl bank m hm
    have : m.glIdx = g.idx := by rw [hmb]; rfl
    exact hmi ▸ this ▸ List.mem_map_of_mem (fun r => r.idx) hg
  have hsubB : ∀ i ∈ (findFuzzyMatches p sim gl bank).1.map (fun m => m.bankIdx),
      i ∈ bank.map (fun r => r.idx) := by
    intro i hi
    obtain ⟨m, hm, hmi⟩ := List.mem_map.1 hi
    obtain ⟨g, hg, b, hb, hmb, -, -⟩ := fuzzyMatches_mem p sim gl bank m hm
    have : m.bankIdx = b.idx := by rw [hmb]; rfl
    exact hmi ▸ this ▸ List.mem_map_of_mem (fun r => r.idx) hb
  have h1 := pool_count gl _ hgl hFA hsubG
  have h2 := pool_count bank _ hbank hFB hsubB
  rw [List.length_map] at h1 h2
  exact ⟨h1, h2⟩

/-- C3 counterexample: with two internal records sharing the key of a
single external record, the chain emits two matches and empties both
pools: twice the match count plus the residual counts is four, while
the inputs count three, so the claimed conservation equation fails. -/
theorem C3_conservation_counterexample :
    (reconcileExactMatches (1 / 100) c3GlTable c3BankTable).toOption.map
        (fun s => 2 * s.matchList.length + s.unmatchedGl.length
          + s.unmatchedBank.length)
      = some 4 ∧
    c3GlTable.rows.length + c3BankTable.rows.length = 3 ∧ (4 : Nat) ≠ 3 := by
  refine ⟨?_, rfl, by decide⟩
  with_unfolding_all decide

/-- C3 amended: the conservation equation holds after the exact chain,
and again after fuzzy auto-matching, provided no record is referenced
by two matches (duplicate-free matched index lists) — a side condition
the engine does not enforce. -/
theorem C3_conservation_amended :
    (∀ (tol : Rat) (gl bank : InputTable) (es : ExactSession),
      (gl.rows.map (fun r => r.idx)).Nodup →
      (bank.rows.map (fun r => r.idx)).Nodup →
      reconcileExactMatches tol gl bank = .ok es →
      (es.matchList.map (fun m => m.glRec.idx)).Nodup →
      (es.matchList.map (fun m => m.bankRec.idx)).Nodup →
      2 * es.matchList.length + es.unmatchedGl.length + es.unmatchedBank.length
        = gl.rows.length + bank.rows.length) ∧
    (∀ (tol : Rat) (p : FuzzyParams) (sim : SimOracle) (gl bank : InputTable)
        (s : Session),
      (gl.rows.map (fun r => r.idx)).Nodup →
      (bank.rows.map (fun r => r.idx)).Nodup →
      runPipeline tol p sim gl bank = .ok s →
      (s.exactMatches.map (fun m => m.glRec.idx)
        ++ s.fuzzyMatches.map (fun m => m.glIdx)).Nodup →
      (s.exactMatches.map (fun m => m.bankRec.idx)
        ++ s.fuzzyMatches.map (fun m => m.bankIdx)).Nodup →
      2 * (s.exactMatches.length + s.fuzzyMatches.length)
          + s.unmatchedGl.length + s.unmatchedBank.length
        = gl.rows.length + bank.rows.length) := by
  constructor
  · intro tol gl bank es hgl hbank hok hA hB
    unfold reconcileExactMatches at hok
    cases hv : validateReconciliationData gl bank with
    | error e =>
      rw [hv] at hok
      exact absurd hok (by simp)
    | ok u =>
      cases u
      rw [hv] at hok
      have hok2 : (Except.ok
          { matchList := (runStrategies tol defaultStrategies gl.rows bank.rows).1,
            unmatchedGl := (runStrategies tol defaultStrategies gl.rows bank.rows).2.1,
            unmatchedBank := (runStrategies tol defaultStrategies gl.rows bank.rows).2.2 }
          : Except String ExactSession) = .ok es := hok
      have hes := Except.ok.inj hok2
      subst hes
      obtain ⟨⟨h1, h2⟩, -⟩ := runStrategies_counts tol defaultStrategies
        gl.rows bank.rows hgl hbank hA hB
      dsimp only
      omega
  · intro tol p sim gl bank s hgl hbank hok hA hB
    unfold runPipeline at hok
    cases hre : reconcileExactMatches tol gl bank with
    | error e =>
      rw [hre] at hok
      exact absurd hok (by simp)
    | ok es =>
      rw [hre] at hok
      have hok2 : (Except.ok
          { exactMatches := es.matchList,
            fuzzyMatches := (findFuzzyMatches p sim es.unmatchedGl es.unmatchedBank).1,
            potentialMatches := (findFuzzyMatches p sim es.unmatchedGl es.unmatchedBank).2,
            unmatchedGl := (getUnmatchedRecords es.unmatchedGl es.unmatchedBank
              (findFuzzyMatches p sim es.unmatchedGl es.unmatchedBank).1).1,
            unmatchedBank := (getUnmatchedRecords es.unmatchedGl es.unmatchedBank
              (findFuzzyMatches p sim es.unmatchedGl es.unmatchedBank).1).2 }
          : Except String Session) = .ok s := hok
      have hs := Except.ok.inj hok2
      subst hs
      have hAsplit := List.nodup_append.1 hA
      have hBsplit := List.nodup_append.1 hB
      unfold reconcileExactMatches at hre
      cases hv : validateReconciliationData gl bank with
      | error e =>
        rw [hv] at hre
        have hre3 : (Except.error ("Reconciliation failed: " ++ e)
            : Except String ExactSession) = .ok es := hre
        exact absurd hre3 (by simp)
      | ok u =>
        cases u
        rw [hv] at hre
        have hre2 : (Except.ok
            { matchList := (runStrategies tol defaultStrategies gl.rows bank.rows).1,
              unmatchedGl := (runStrategies tol defaultStrategies gl.rows bank.rows).2.1,
              unmatchedBank := (runStrategies tol defaultStrategies gl.rows bank.rows).2.2 }
            : Except String ExactSession) = .ok es := hre
        have hes := Except.ok.inj hre2
        subst hes
        obtain ⟨⟨h1, h2⟩, hug, hub⟩ := runStrategies_counts tol defaultStrategies
          gl.rows bank.rows hgl hbank hAsplit.1 hBsplit.1
        obtain ⟨h3, h4⟩ := getUnmatched_counts p sim _ _ hug hub
          hAsplit.2.1 hBsplit.2.1
        dsimp only at h3 h4 ⊢
        omega

/-- C3 amended witness: on a cleanly matching single-record pair the
conservation equation holds after the exact chain and after the fuzzy
stage. -/
theorem C3_conservation_amended_witness :
    (2 * c3wExpectedSession.matchList.length
        + c3wExpectedSession.unmatchedGl.length
        + c3wExpectedSession.unmatchedBank.length
      = c3wGlTable.rows.length + c3wBankTable.rows.length) ∧
    (2 * (c3wExpectedFull.exactMatches.length
          + c3wExpectedFull.fuzzyMatches.length)
        + c3wExpectedFull.unmatchedGl.length
        + c3wExpectedFull.unmatchedBank.length
      = c3wGlTable.rows.length + c3wBankTable.rows.length) := by
  constructor
  · exact C3_conservation_amended.1 (1 / 100) c3wGlTable c3wBankTable
      c3wExpectedSession (by decide) (by decide)
      (except_of_toOption_some _ _ (by with_unfolding_all decide))
      (by decide) (by decide)
  · exact C3_conservation_amended.2 (1 / 100) defaultFuzzyParams simEqOracle
      c3wGlTable c3wBankTable c3wExpectedFull (by decide) (by decide)
      (except_of_toOption_some _ _ (by with_unfolding_all decide))
      (by decide) (by decide)

end SmartRecon
